import Mathlib

/-!
Verification development for the RTSP control-channel layer of an
AirPlay receiver firmware (src/main/rtsp/rtsp_crypto.c and
src/main/rtsp/rtsp_message.c), shallowly embedded in Lean 4.

Bytes are modelled as `Nat` (values < 256 where it matters), byte
buffers as `List Nat`.  Non-blocking sockets are modelled as explicit
event queues.  Machine integers that can wrap (the 64-bit nonce
counters) are tracked modulo 2^64.
-/

namespace AirplayRtsp

/-- `RTSP_ENCRYPTED_BLOCK_MAX`.  Modelled from the spec: the fixed
maximum encrypted block size ceiling (the header `rtsp_crypto.h`
defining the constant is not under src/; the spec only states it is a
fixed configured ceiling; HAP-style framing uses 1024). -/
def RTSP_ENCRYPTED_BLOCK_MAX : Nat := 1024

/-- Little-endian 2-byte encoding of a block length, as built by
`rtsp_crypto_write_frame` (`len_buf[0] = len & 0xFF; len_buf[1] = (len >> 8) & 0xFF`). -/
def le16 (n : Nat) : List Nat := [n % 256, (n / 256) % 256]

/-- The 8 bytes of a little-endian `uint64_t`, as laid down by
`memcpy(dst, &counter, 8)` on the little-endian target. -/
def le64 (n : Nat) : List Nat :=
  [n % 256, n / 256 % 256, n / 256 ^ 2 % 256, n / 256 ^ 3 % 256,
   n / 256 ^ 4 % 256, n / 256 ^ 5 % 256, n / 256 ^ 6 % 256, n / 256 ^ 7 % 256]

/-- The 12-byte AEAD nonce as built by both directions of
rtsp_crypto.c: `uint8_t nonce[12] = {0}; memcpy(nonce + 4, &counter, 8)`,
i.e. four zero bytes followed by the little-endian 64-bit counter. -/
def buildNonce (counter : Nat) : List Nat := List.replicate 4 0 ++ le64 counter

/-- Modelled from the spec: tag of the AEAD cipher
(`crypto_aead_chacha20poly1305_ietf_*`; libsodium is not under src/).
The model keeps the documented interface shape: a 16-byte tag that
depends on key, nonce, associated data and message. -/
def aeadTag (key nonce ad m : List Nat) : List Nat :=
  List.replicate 16 ((key.sum + 3 * nonce.sum + 5 * ad.sum + 7 * m.sum + 11 * m.length) % 256)

/-- Modelled from the spec: `crypto_aead_chacha20poly1305_ietf_encrypt`
(libsodium, not under src/), by its documented contract: the ciphertext
of an `m`-byte message is `m + 16` bytes (message plus 16-byte tag). -/
def aeadEncrypt (key nonce ad m : List Nat) : List Nat :=
  m ++ aeadTag key nonce ad m

/-- Modelled from the spec: `crypto_aead_chacha20poly1305_ietf_decrypt`
(libsodium, not under src/), by its documented contract: succeeds
exactly on well-formed ciphertexts whose tag authenticates under the
same key/nonce/associated data, returning the `c.length - 16`-byte
message. -/
def aeadDecrypt (key nonce ad c : List Nat) : Option (List Nat) :=
  if 16 ≤ c.length then
    let m := c.take (c.length - 16)
    if c.drop (c.length - 16) = aeadTag key nonce ad m then some m else none
  else none

/-! ## Non-blocking socket model (inbound)

A socket is a queue of events.  `bytes b bs` is a burst of available
data (structurally nonempty); `wb` is a would-block condition
(`EAGAIN`/`EWOULDBLOCK`); `closed` is an orderly close (`recv` returns
0); `rerr` is a hard read error.  An exhausted queue behaves as
would-block, matching a non-blocking socket with no data pending. -/

inductive SockEv where
  | bytes (b : Nat) (bs : List Nat)
  | wb
  | closed
  | rerr
deriving Repr, DecidableEq

abbrev Sock := List SockEv

/-- Build a socket delivering `bs` as one burst (empty `bs` gives an
idle socket). -/
def sockOfBytes (bs : List Nat) : Sock :=
  match bs with
  | [] => []
  | b :: rest => [SockEv.bytes b rest]

/-- Outcome tag of a fill loop (`recv` loop reading an exact number of
bytes, as in both `while` loops of `rtsp_crypto_read_block`). -/
inductive FillTag where
  | full
  | wb
  | closed
  | rerr
deriving Repr, DecidableEq

/-- One `recv`-driven fill loop: read exactly `need` more bytes into
accumulator `acc`, as `rtsp_crypto_read_block` does for the length
header and for the ciphertext.  A burst at the head of the queue is
consumed up to `need` bytes; the rest of the burst stays queued.
(Consumption of a burst is stepped one byte at a time, which consumes
the same bytes and leaves the same queue as the C `recv` returning any
positive count up to the remaining need.)  Returns the outcome tag,
the accumulator, and the remaining socket. -/
def fillLoop : Nat → Sock → List Nat → FillTag × List Nat × Sock
  | 0, s, acc => (FillTag.full, acc, s)
  | _ + 1, [], acc => (FillTag.wb, acc, [])
  | need + 1, SockEv.bytes b bs :: rest, acc =>
      fillLoop need
        (match bs with
         | [] => rest
         | c :: cs => SockEv.bytes c cs :: rest)
        (acc ++ [b])
  | _ + 1, SockEv.wb :: rest, acc => (FillTag.wb, acc, rest)
  | _ + 1, SockEv.closed :: rest, acc => (FillTag.closed, acc, rest)
  | _ + 1, SockEv.rerr :: rest, acc => (FillTag.rerr, acc, rest)

/-! ## Connection state -/

/-- The session key material borrowed from the pairing subsystem
(`hap_session`): two keys and two independent 64-bit nonce counters. -/
structure HapSession where
  encrypt_key : List Nat
  decrypt_key : List Nat
  encrypt_nonce : Nat
  decrypt_nonce : Nat
deriving Repr, DecidableEq

/-- Partial-read state `crypto_rx` of a connection.  `len_buf` holds
the header bytes received so far (the C pair of a 2-byte array plus
`len_received` count is abstracted as the list of received bytes, so
`len_received = len_buf.length`); `encrypted = some got` models an
allocated ciphertext buffer holding the `got` bytes received so far
(`encrypted_received = got.length`); `encrypted = none` models a NULL
buffer pointer. -/
structure CryptoRx where
  len_buf : List Nat
  block_len : Nat
  encrypted_len : Nat
  encrypted : Option (List Nat)
deriving Repr, DecidableEq

/-- Fresh (fully reset) partial-read state. -/
def freshRx : CryptoRx := ⟨[], 0, 0, none⟩

/-- Per-connection state (`rtsp_conn_t`), restricted to the fields the
crypto layer touches. -/
structure RtspConn where
  encrypted_mode : Bool
  hap_session : Option HapSession
  crypto_rx : CryptoRx
deriving Repr, DecidableEq

/-- Error discriminants of the fatal (-1) returns of
`rtsp_crypto_read_block`, matching its exit paths (teardown guard,
hard read error, peer close, invalid declared length, allocation
failure, decryption failure, oversized decrypted length). -/
inductive RtspErr where
  | teardown
  | rerr
  | closed
  | badLen
  | allocFail
  | decFail
  | tooLarge
deriving Repr, DecidableEq

/-- Result of one `rtsp_crypto_read_block` call: `fatal e` is the C
return -1 (with `e` recording which exit path fired), `again` is the C
return 0 (would-block, no complete frame yet), `ok pt` is a positive C
return `pt.length` with the plaintext `pt` written to the caller's
buffer. -/
inductive ReadRes where
  | fatal (e : RtspErr)
  | again
  | ok (pt : List Nat)
deriving Repr, DecidableEq

/-- `rtsp_crypto_read_block` (rtsp_crypto.c lines 26-146), transcribed
step for step.  `allocOk` models whether the per-frame `malloc`
succeeds.  Returns the call result, the updated connection, and the
remaining socket queue. -/
def rtsp_crypto_read_block (allocOk : Bool) (sock : Sock) (conn : RtspConn)
    (buffer_size : Nat) : ReadRes × RtspConn × Sock :=
  match conn.hap_session with
  | none => (ReadRes.fatal RtspErr.teardown, conn, sock)
  | some sess =>
    if conn.encrypted_mode = false then (ReadRes.fatal RtspErr.teardown, conn, sock)
    else
      -- Read 2-byte length header, keeping partial state in conn.
      match fillLoop (2 - conn.crypto_rx.len_buf.length) sock conn.crypto_rx.len_buf with
      | (FillTag.wb, acc, s1) =>
          (ReadRes.again, { conn with crypto_rx := { conn.crypto_rx with len_buf := acc } }, s1)
      | (FillTag.rerr, acc, s1) =>
          -- C: return -1 with no reset of the partial header state.
          (ReadRes.fatal RtspErr.rerr,
           { conn with crypto_rx := { conn.crypto_rx with len_buf := acc } }, s1)
      | (FillTag.closed, acc, s1) =>
          -- C: return -1 with no reset of the partial header state.
          (ReadRes.fatal RtspErr.closed,
           { conn with crypto_rx := { conn.crypto_rx with len_buf := acc } }, s1)
      | (FillTag.full, acc, s1) =>
        -- Allocate encrypted buffer once we have a full length header.
        let rx0 := { conn.crypto_rx with len_buf := acc }
        let rx1 :=
          if rx0.encrypted = none then
            let block_len := acc.getD 0 0 + 256 * acc.getD 1 0
            if block_len = 0 ∨ RTSP_ENCRYPTED_BLOCK_MAX < block_len ∨ buffer_size < block_len then
              Sum.inl (RtspErr.badLen, { rx0 with len_buf := [], block_len := 0 })
            else if allocOk = false then
              Sum.inl (RtspErr.allocFail,
                       { rx0 with len_buf := [], block_len := 0, encrypted_len := 0 })
            else
              Sum.inr { rx0 with block_len := block_len,
                                 encrypted_len := block_len + 16,
                                 encrypted := some [] }
          else Sum.inr rx0
        match rx1 with
        | Sum.inl (e, rxErr) => (ReadRes.fatal e, { conn with crypto_rx := rxErr }, s1)
        | Sum.inr rx2 =>
          let got := rx2.encrypted.getD []
          -- Read encrypted payload (+ tag), keeping partial state across timeouts.
          match fillLoop (rx2.encrypted_len - got.length) s1 got with
          | (FillTag.wb, acc2, s2) =>
              (ReadRes.again,
               { conn with crypto_rx := { rx2 with encrypted := some acc2 } }, s2)
          | (FillTag.rerr, _, s2) =>
              (ReadRes.fatal RtspErr.rerr, { conn with crypto_rx := freshRx }, s2)
          | (FillTag.closed, _, s2) =>
              (ReadRes.fatal RtspErr.closed, { conn with crypto_rx := freshRx }, s2)
          | (FillTag.full, ct, s2) =>
            -- Decrypt using session keys.
            match aeadDecrypt sess.decrypt_key (buildNonce sess.decrypt_nonce) rx2.len_buf ct with
            | none =>
                (ReadRes.fatal RtspErr.decFail, { conn with crypto_rx := freshRx }, s2)
            | some pt =>
              let sess' := { sess with decrypt_nonce := (sess.decrypt_nonce + 1) % 2 ^ 64 }
              let conn' := { conn with crypto_rx := freshRx, hap_session := some sess' }
              if buffer_size < pt.length then
                (ReadRes.fatal RtspErr.tooLarge, conn', s2)
              else
                (ReadRes.ok pt, conn', s2)

/-! ## Non-blocking socket model (outbound)

The kernel side of `send` is modelled as a plan of events: `acc n`
lets the next `send` call accept up to `n + 1` bytes (at least one, as
a successful `send` returns a positive count); `fail` makes it return
an error.  An exhausted plan also fails. -/

inductive SendEv where
  | acc (n : Nat)
  | fail
deriving Repr, DecidableEq

abbrev SendPlan := List SendEv

/-- `send_all` (rtsp_crypto.c lines 14-24): keep calling `send` on the
unsent remainder until everything is accepted or a call errors.
Returns whether it succeeded (C returns 0 / -1), the bytes actually
handed to the kernel (the wire trace), and the remaining plan. -/
def send_all : List Nat → SendPlan → Bool × List Nat × SendPlan
  | [], plan => (true, [], plan)
  | _ :: _, [] => (false, [], [])
  | _ :: _, SendEv.fail :: rest => (false, [], rest)
  | b :: bs, SendEv.acc n :: rest =>
      let k := min (n + 1) (b :: bs).length
      let out := send_all ((b :: bs).drop k) rest
      (out.1, (b :: bs).take k ++ out.2.1, out.2.2)

/-- Chunk loop of `rtsp_crypto_write_frame` (rtsp_crypto.c lines
155-196): while payload remains, take a block of at most
`RTSP_ENCRYPTED_BLOCK_MAX` bytes, build the 2-byte little-endian
length header, encrypt under the outbound key with the nonce built
from the outbound counter and the header bytes as associated data,
send header then ciphertext+tag, and only then advance the outbound
nonce counter.  Returns success, the updated session, the wire trace,
and the remaining send plan.  (The `ct_len != encrypted_len` guard of
the C code is kept; with the AEAD contract it never fires.) -/
def writeLoop : HapSession → List Nat → SendPlan → Bool × HapSession × List Nat × SendPlan
  | sess, [], plan => (true, sess, [], plan)
  | sess, b :: bs, plan =>
      let block := (b :: bs).take RTSP_ENCRYPTED_BLOCK_MAX
      let len_buf := le16 block.length
      let nonce := buildNonce sess.encrypt_nonce
      let encrypted := aeadEncrypt sess.encrypt_key nonce len_buf block
      if encrypted.length ≠ block.length + 16 then (false, sess, [], plan)
      else
        let out1 := send_all len_buf plan
        if out1.1 = false then (false, sess, out1.2.1, out1.2.2)
        else
          let out2 := send_all encrypted out1.2.2
          if out2.1 = false then (false, sess, out1.2.1 ++ out2.2.1, out2.2.2)
          else
            let sess' := { sess with encrypt_nonce := (sess.encrypt_nonce + 1) % 2 ^ 64 }
            let out3 := writeLoop sess' ((b :: bs).drop RTSP_ENCRYPTED_BLOCK_MAX) out2.2.2
            (out3.1, out3.2.1, out1.2.1 ++ out2.2.1 ++ out3.2.2.1, out3.2.2.2)
termination_by _ d _ => d.length
decreasing_by
  simp only [List.length_drop, List.length_cons, RTSP_ENCRYPTED_BLOCK_MAX]
  omega

/-- `rtsp_crypto_write_frame` (rtsp_crypto.c lines 148-199): teardown
guard, then the chunk loop.  Returns success (C returns 0 / -1), the
updated connection, the wire trace, and the remaining send plan. -/
def rtsp_crypto_write_frame (conn : RtspConn) (data : List Nat)
    (plan : SendPlan) : Bool × RtspConn × List Nat × SendPlan :=
  match conn.hap_session with
  | none => (false, conn, [], plan)
  | some sess =>
    if conn.encrypted_mode = false then (false, conn, [], plan)
    else
      let out := writeLoop sess data plan
      (out.1, { conn with hap_session := some out.2.1 }, out.2.2.1, out.2.2.2)

/-! ## RTSP message parsing (rtsp_message.c)

C strings are modelled as byte lists; list end plays the role of the
terminating NUL, and the C string functions that stop at NUL operate
on `takeWhile (· != 0)` of the underlying buffer. -/

/-- ASCII bytes of a Lean string literal. -/
def ascii (s : String) : List Nat := s.data.map Char.toNat

/-- C `isspace` on ASCII: space and `\t` `\n` `\v` `\f` `\r`. -/
def isSpaceByte (b : Nat) : Bool := b == 32 || (9 ≤ b && b ≤ 13)

/-- C `tolower` on ASCII bytes. -/
def lowerByte (b : Nat) : Nat := if 65 ≤ b ∧ b ≤ 90 then b + 32 else b

/-- Byte-list `strncasecmp ... == 0` on equal-length slices. -/
def ciEqList : List Nat → List Nat → Bool
  | [], [] => true
  | a :: as1, b :: bs1 => lowerByte a == lowerByte b && ciEqList as1 bs1
  | _, _ => false

/-- `strstr(p, "\r\n")` as a splitter: the part before the first CRLF
and the part after it. -/
def splitFirstCRLF : List Nat → Option (List Nat × List Nat)
  | [] => none
  | [_] => none
  | a :: b :: rest =>
      if a = 13 ∧ b = 10 then some ([], rest)
      else (splitFirstCRLF (b :: rest)).map fun p => (a :: p.1, p.2)

/-- Length of the current header line (up to the first CRLF, or to the
end of the string), as computed by `line_end` in `find_header_ci`. -/
def lineLenOf (hs : List Nat) : Nat :=
  match splitFirstCRLF hs with
  | some p => p.1.length
  | none => hs.length

/-- Line scan of `find_header_ci` (rtsp_message.c lines 24-44): at the
start of each line, compare the line's first `key.length` bytes
case-insensitively (guarded by the line being at least that long); on
a match return the suffix after the key with leading spaces/tabs
skipped; otherwise move past the CRLF to the next line.  The C loop
jumps from one line start to the next; the scanner walks the bytes in
between with `atStart = false`, where it performs no checks, so it
visits exactly the same line-start positions. -/
def findScan (key : List Nat) : List Nat → Bool → Option (List Nat)
  | [], _ => none
  | [b], atStart =>
      if atStart ∧ key.length ≤ lineLenOf [b] ∧
          ciEqList ([b].take key.length) key = true then
        some (([b].drop key.length).dropWhile fun x => x == 32 || x == 9)
      else none
  | a :: b :: rest, atStart =>
      if a = 13 ∧ b = 10 then findScan key rest true
      else if atStart ∧ key.length ≤ lineLenOf (a :: b :: rest) ∧
          ciEqList ((a :: b :: rest).take key.length) key = true then
        some (((a :: b :: rest).drop key.length).dropWhile fun x => x == 32 || x == 9)
      else findScan key (b :: rest) false

/-- `find_header_ci` (rtsp_message.c lines 14-47), including the NULL
and empty-key guards. -/
def find_header_ci (headers key : List Nat) : Option (List Nat) :=
  if key.length = 0 then none else findScan key headers true

/-- Digit-accumulating core of C `atoi`. -/
def digsVal : List Nat → Nat → Nat
  | b :: rest, acc => if 48 ≤ b ∧ b ≤ 57 then digsVal rest (acc * 10 + (b - 48)) else acc
  | [], acc => acc

/-- C `atoi` on a byte list: skip leading whitespace, optional sign,
leading decimal digits; non-numeric content yields 0. -/
def atoi (l : List Nat) : Int :=
  match l.dropWhile fun b => isSpaceByte b with
  | 45 :: r => - (digsVal r 0 : Int)
  | 43 :: r => (digsVal r 0 : Int)
  | r => (digsVal r 0 : Int)

/-- The C cast `(size_t)i` on the 32-bit target. -/
def toSizeT (i : Int) : Nat := (i % (2 : Int) ^ 32).toNat

/-- `rtsp_find_header_end` (rtsp_message.c lines 73-81): offset of the
first CR LF CR LF within the buffer, scanning the full given length
(no NUL termination involved). -/
def rtsp_find_header_end : List Nat → Option Nat
  | [] => none
  | [_] => none
  | [_, _] => none
  | [_, _, _] => none
  | a :: b :: c :: d :: rest =>
      if a = 13 ∧ b = 10 ∧ c = 13 ∧ d = 10 then some 0
      else (rtsp_find_header_end (b :: c :: d :: rest)).map (· + 1)

/-- `rtsp_get_body` (rtsp_message.c lines 102-112): locate the first
blank-line terminator with `strstr` on the original buffer (stopping
at a NUL, as `strstr` does), return the view starting 4 bytes past it,
with its length computed from the total buffer length. -/
def rtsp_get_body (data : List Nat) : Option (List Nat) × Nat :=
  match rtsp_find_header_end (data.takeWhile fun b => b != 0) with
  | some i => (some (data.drop (i + 4)), data.length - (i + 4))
  | none => (none, 0)

/-- Size of the `content_type` field of `rtsp_request_t`.  Modelled
from the spec: the struct lives in rtsp_message.h, which is not under
src/; the spec only requires a bounded copy with truncation. -/
def CONTENT_TYPE_CAP : Nat := 64

/-- `copy_header_value_token` (rtsp_message.c lines 49-71): copy the
value up to CR, LF, NUL or capacity, then trim trailing spaces/tabs. -/
def copy_header_value_token (cap : Nat) (src : List Nat) : List Nat :=
  let raw := (src.takeWhile fun b => b != 0 && b != 13 && b != 10).take (cap - 1)
  (raw.reverse.dropWhile fun b => b == 32 || b == 9).reverse

/-- One `%Ns` conversion of `sscanf`: skip whitespace, then read at
most `width` non-whitespace bytes (a NUL ends the input).  Returns the
token and the rest of the input right after it. -/
def scanTok (width : Nat) (l : List Nat) : List Nat × List Nat :=
  let l1 := l.dropWhile fun b => isSpaceByte b
  let tok := (l1.takeWhile fun b => !isSpaceByte b && b != 0).take width
  (tok, l1.drop tok.length)

/-- The parsed request (`rtsp_request_t`), restricted to the fields
rtsp_message.c fills in. -/
structure RtspRequest where
  method : List Nat
  path : List Nat
  cseq : Int
  content_length : Nat
  content_type : List Nat
  body : Option (List Nat)
  body_len : Nat
deriving Repr, DecidableEq

/-- `rtsp_request_parse` (rtsp_message.c lines 150-204): reject empty
input or a missing blank-line terminator; tokenize the request line
with `sscanf("%31s %255s")`; copy at most 1023 header bytes and look
up CSeq / Content-Length / Content-Type case-insensitively in the
copy; locate the body in the original buffer.  `none` is the C return
-1. -/
def rtsp_request_parse (data : List Nat) : Option RtspRequest :=
  if data.length = 0 then none
  else
    match rtsp_find_header_end data with
    | none => none
    | some he =>
        let t1 := scanTok 31 data
        if t1.1 = [] then none
        else
          let t2 := scanTok 255 t1.2
          let copy_len := min he 1023
          let header_str := (data.take copy_len).takeWhile fun b => b != 0
          let cseq := match find_header_ci header_str (ascii "CSeq:") with
            | some v => atoi v
            | none => 1
          let content_length := match find_header_ci header_str (ascii "Content-Length:") with
            | some v => toSizeT (atoi v)
            | none => 0
          let content_type := match find_header_ci header_str (ascii "Content-Type:") with
            | some v => copy_header_value_token CONTENT_TYPE_CAP v
            | none => []
          let bodyPair := rtsp_get_body data
          some ⟨t1.1, t2.1, cseq, content_length, content_type, bodyPair.1, bodyPair.2⟩

/-! ## Response builder (rtsp_message.c lines 219-291) -/

/-- Little-endian decimal digits of `n`; the fuel argument (any bound
on the number of divisions by 10) keeps the recursion structural. -/
def natDecAux : Nat → Nat → List Nat
  | 0, _ => []
  | _ + 1, 0 => []
  | fuel + 1, n + 1 => (n + 1) % 10 :: natDecAux fuel ((n + 1) / 10)

/-- Decimal digit bytes of a natural number (`%u`-style, "0" for 0). -/
def natDecBytes (n : Nat) : List Nat :=
  if n = 0 then [48] else ((natDecAux n n).reverse.map (· + 48))

/-- `%d`-style decimal bytes of an integer. -/
def intDecBytes (i : Int) : List Nat :=
  if i < 0 then 45 :: natDecBytes i.natAbs else natDecBytes i.toNat

/-- The RTSP response head built by the four `snprintf` branches of
`rtsp_send_response` (lines 226-259), keyed on whether extra headers
and a nonempty body were supplied.  (Faithful for heads shorter than
the 1024-byte `header` buffer; every theorem below stays in that
regime.) -/
def buildRtspHead (status_code : Int) (status_text : List Nat) (cseq : Int)
    (extra_headers : Option (List Nat)) (hasBody : Bool) (body_len : Nat) : List Nat :=
  ascii "RTSP/1.0 " ++ intDecBytes status_code ++ [32] ++ status_text ++
  ascii "\r\nCSeq: " ++ intDecBytes cseq ++ ascii "\r\nServer: AirTunes/377.40.00\r\n" ++
  (match extra_headers with
   | some e => e
   | none => []) ++
  (if hasBody then ascii "Content-Length: " ++ natDecBytes body_len ++ ascii "\r\n" else []) ++
  ascii "\r\n"

/-- `rtsp_send_response` (rtsp_message.c lines 219-287): build the
head, append the body bytes, then route the whole buffer through the
Encrypted Frame Writer in encrypted mode or through the plain
`send_all` loop otherwise.  `allocOk` models the response-buffer
`malloc`.  Returns success, the updated connection, the plain-socket
wire trace (empty in encrypted mode, where the trace is the writer's),
the encrypted-mode trace, and the remaining plan. -/
def rtsp_send_response (conn : RtspConn) (status_code : Int) (status_text : List Nat)
    (cseq : Int) (extra_headers : Option (List Nat)) (body : Option (List Nat))
    (body_len : Nat) (allocOk : Bool) (plan : SendPlan) :
    Bool × RtspConn × List Nat × SendPlan :=
  let hasBody := match body with
    | some _ => 0 < body_len
    | none => false
  let header := buildRtspHead status_code status_text cseq extra_headers hasBody body_len
  let response := header ++ (if hasBody then (body.getD []).take body_len else [])
  if allocOk = false then (false, conn, [], plan)
  else if conn.encrypted_mode then
    let out := rtsp_crypto_write_frame conn response plan
    (out.1, out.2.1, out.2.2.1, out.2.2.2)
  else
    let out := send_all response plan
    (out.1, conn, out.2.1, out.2.2)

/-- `rtsp_send_ok` (rtsp_message.c lines 289-291). -/
def rtsp_send_ok (conn : RtspConn) (cseq : Int) (plan : SendPlan) :
    Bool × RtspConn × List Nat × SendPlan :=
  rtsp_send_response conn 200 (ascii "OK") cseq none none 0 true plan

/-! ## Auxiliary definitions used by the statements below -/

/-- Drive `rtsp_crypto_read_block` delivering exactly one byte per
call (each call's socket holds a single one-byte burst and then
would-block).  Returns the last call's result together with the final
connection state. -/
def driveOneByte (allocOk : Bool) (buffer_size : Nat) :
    RtspConn → List Nat → ReadRes × RtspConn
  | conn, [] => (ReadRes.again, conn)
  | conn, [b] =>
      let r := rtsp_crypto_read_block allocOk [SockEv.bytes b []] conn buffer_size
      (r.1, r.2.1)
  | conn, b :: c :: rest =>
      let r := rtsp_crypto_read_block allocOk [SockEv.bytes b []] conn buffer_size
      driveOneByte allocOk buffer_size r.2.1 (c :: rest)

/-- Invariant of the partial-read state that holds in every state
reachable by calls with output capacity `buffer_size`: without an
allocated buffer the numeric fields are clear, and with one the header
is complete, the declared length was validated (positive and at most
`buffer_size`), the target is declared length + 16-byte tag, and no
more than the target has been received. -/
def RxInv (rx : CryptoRx) (buffer_size : Nat) : Prop :=
  (rx.encrypted = none → rx.block_len = 0 ∧ rx.encrypted_len = 0) ∧
  (∀ got, rx.encrypted = some got →
      rx.len_buf.length = 2 ∧ 1 ≤ rx.block_len ∧ rx.block_len ≤ buffer_size ∧
      rx.encrypted_len = rx.block_len + 16 ∧ got.length ≤ rx.encrypted_len)

/-- The nonce layout as the spec's words describe it (stated for
comparison with `buildNonce`, which is what the code builds): the low
8 bytes hold the 64-bit counter and the remaining bytes are zero. -/
def specNonceLow8 (counter : Nat) : List Nat := le64 counter ++ List.replicate 4 0

/-- `a` is a prefix of `b`. -/
def IsPrefixList (a b : List Nat) : Prop := ∃ t, a ++ t = b

/-- The consecutive chunks (each of at most `RTSP_ENCRYPTED_BLOCK_MAX`
bytes) into which `rtsp_crypto_write_frame` splits a payload. -/
def chunksOf : List Nat → List (List Nat)
  | [] => []
  | b :: bs =>
      (b :: bs).take RTSP_ENCRYPTED_BLOCK_MAX ::
        chunksOf ((b :: bs).drop RTSP_ENCRYPTED_BLOCK_MAX)
termination_by d => d.length
decreasing_by
  simp only [List.length_drop, List.length_cons, RTSP_ENCRYPTED_BLOCK_MAX]
  omega

/-- The wire bytes of a list of chunks: for each chunk, the 2-byte
little-endian length header followed by ciphertext plus tag, with the
nonce counter advancing by 1 per chunk. -/
def framesOf (key : List Nat) : Nat → List (List Nat) → List Nat
  | _, [] => []
  | n0, c :: cs =>
      le16 c.length ++ aeadEncrypt key (buildNonce n0) (le16 c.length) c ++
        framesOf key ((n0 + 1) % 2 ^ 64) cs

/-- CRLF-join of a nonempty list of header lines, without a trailing
CRLF (a request's header block is `headerJoin lines` followed by the
blank-line terminator `\r\n\r\n` and the body). -/
def headerJoin : List (List Nat) → List Nat
  | [] => []
  | l :: ls =>
      match ls with
      | [] => l
      | _ :: _ => l ++ 13 :: 10 :: headerJoin ls

/-- The line-start test of `find_header_ci`: the line is at least as
long as the key and matches it case-insensitively byte for byte. -/
def matchesKeyCI (key l : List Nat) : Prop :=
  key.length ≤ l.length ∧ ciEqList (l.take key.length) key = true

instance (key l : List Nat) : Decidable (matchesKeyCI key l) :=
  inferInstanceAs (Decidable (_ ∧ _))

/-- The spec's worked request-parsing example input. -/
def exampleRequest : List Nat :=
  ascii "SETUP /stream RTSP/1.0\r\nCSeq: 3\r\nContent-Length: 5\r\n\r\nHELLO"

/-! ## Helper lemmas: AEAD model -/

theorem aeadEncrypt_length (key nonce ad m : List Nat) :
    (aeadEncrypt key nonce ad m).length = m.length + 16 := by
  simp [aeadEncrypt, aeadTag]

theorem aeadDecrypt_encrypt (key nonce ad m : List Nat) :
    aeadDecrypt key nonce ad (aeadEncrypt key nonce ad m) = some m := by
  have hlen : (aeadEncrypt key nonce ad m).length = m.length + 16 :=
    aeadEncrypt_length key nonce ad m
  have htake : (aeadEncrypt key nonce ad m).take (m.length + 16 - 16) = m := by
    simp [aeadEncrypt, List.take_left]
  have hdrop : (aeadEncrypt key nonce ad m).drop (m.length + 16 - 16) =
      aeadTag key nonce ad m := by
    simp [aeadEncrypt, List.drop_left]
  simp only [aeadDecrypt, hlen, htake, hdrop]
  simp only [le_add_iff_nonneg_left, Nat.zero_le, if_true, if_pos]

theorem aeadDecrypt_length {key nonce ad c m : List Nat}
    (h : aeadDecrypt key nonce ad c = some m) : m.length = c.length - 16 := by
  unfold aeadDecrypt at h
  split at h
  · dsimp only at h
    split at h
    · cases h
      simp [List.length_take]
    · exact absurd h (by simp)
  · exact absurd h (by simp)

/-! ## Helper lemmas: fill loop -/

theorem fillLoop_exact :
    ∀ (need : Nat) (b : Nat) (bs : List Nat) (acc : List Nat) (rest : Sock),
      need ≤ (b :: bs).length →
      fillLoop need (SockEv.bytes b bs :: rest) acc =
        (FillTag.full, acc ++ (b :: bs).take need, sockOfBytes ((b :: bs).drop need) ++ rest) := by
  intro need
  induction need with
  | zero => intro b bs acc rest _; simp [fillLoop, sockOfBytes]
  | succ n ih =>
      intro b bs acc rest h
      cases bs with
      | nil =>
          have hn : n = 0 := by simp at h; omega
          subst hn
          simp [fillLoop, sockOfBytes]
      | cons c cs =>
          have h' : n ≤ (c :: cs).length := by simp at h ⊢; omega
          rw [fillLoop, ih c cs (acc ++ [b]) rest h']
          simp

theorem fillLoop_all :
    ∀ (b : Nat) (bs : List Nat) (need : Nat) (acc : List Nat) (rest : Sock),
      (b :: bs).length ≤ need →
      fillLoop need (SockEv.bytes b bs :: rest) acc =
        fillLoop (need - (b :: bs).length) rest (acc ++ (b :: bs)) := by
  intro b bs
  induction bs generalizing b with
  | nil =>
      intro need acc rest h
      match need, h with
      | n + 1, _ => simp [fillLoop]
  | cons c cs ih =>
      intro need acc rest h
      match need, h with
      | n + 1, h =>
          rw [fillLoop, ih c n (acc ++ [b]) rest (by simp at h ⊢; omega)]
          simp

theorem fillLoop_full_parts :
    ∀ (need : Nat) (s : Sock) (acc acc' : List Nat) (s' : Sock),
      fillLoop need s acc = (FillTag.full, acc', s') →
      ∃ t : List Nat, acc' = acc ++ t ∧ t.length = need := by
  intro need
  induction need with
  | zero =>
      intro s acc acc' s' h
      simp [fillLoop] at h
      exact ⟨[], by simp [← h.1], rfl⟩
  | succ n ih =>
      intro s acc acc' s' h
      match s with
      | [] => simp [fillLoop] at h
      | SockEv.wb :: rest => simp [fillLoop] at h
      | SockEv.closed :: rest => simp [fillLoop] at h
      | SockEv.rerr :: rest => simp [fillLoop] at h
      | SockEv.bytes b [] :: rest =>
          rw [fillLoop] at h
          obtain ⟨t, ht, htl⟩ := ih _ _ _ _ h
          exact ⟨b :: t, by simp [ht], by simp [htl]⟩
      | SockEv.bytes b (c :: cs) :: rest =>
          rw [fillLoop] at h
          obtain ⟨t, ht, htl⟩ := ih _ _ _ _ h
          exact ⟨b :: t, by simp [ht], by simp [htl]⟩

/-- A fill loop that does not complete (would-block, hard read error
or peer close) leaves an accumulator that extends the initial bytes
and is still short of the target count. -/
theorem fillLoop_not_full :
    ∀ (need : Nat) (s : Sock) (a : List Nat),
      (fillLoop need s a).1 ≠ FillTag.full →
      IsPrefixList a (fillLoop need s a).2.1 ∧
      (fillLoop need s a).2.1.length < a.length + need := by
  intro need
  induction need with
  | zero => intro s a h; simp [fillLoop] at h
  | succ n ih =>
      intro s a h
      match s with
      | [] =>
          refine ⟨⟨[], by simp [fillLoop]⟩, ?_⟩
          simp [fillLoop]
      | SockEv.wb :: rest =>
          refine ⟨⟨[], by simp [fillLoop]⟩, ?_⟩
          simp [fillLoop]
      | SockEv.closed :: rest =>
          refine ⟨⟨[], by simp [fillLoop]⟩, ?_⟩
          simp [fillLoop]
      | SockEv.rerr :: rest =>
          refine ⟨⟨[], by simp [fillLoop]⟩, ?_⟩
          simp [fillLoop]
      | SockEv.bytes b [] :: rest =>
          rw [fillLoop] at h ⊢
          obtain ⟨⟨t, ht⟩, hlen⟩ := ih _ (a ++ [b]) h
          refine ⟨⟨b :: t, by rw [← ht]; simp⟩, ?_⟩
          simp only [List.length_append, List.length_cons, List.length_nil] at hlen ⊢
          omega
      | SockEv.bytes b (c :: cs) :: rest =>
          rw [fillLoop] at h ⊢
          obtain ⟨⟨t, ht⟩, hlen⟩ := ih _ (a ++ [b]) h
          refine ⟨⟨b :: t, by rw [← ht]; simp⟩, ?_⟩
          simp only [List.length_append, List.length_cons, List.length_nil] at hlen ⊢
          omega

/-! ## Helper lemmas: reading one whole frame -/

/-- Computation of `rtsp_crypto_read_block` on a complete frame
delivered in one burst, starting from a fresh partial-read state: the
header is consumed, the declared length validated, the ciphertext
consumed, and the result is decided by the AEAD decryption with the
nonce built from the inbound counter and the two raw header bytes as
associated data. -/
theorem read_block_full_frame (sess : HapSession) (l0 l1 : Nat) (ct : List Nat)
    (buffer_size : Nat)
    (hbl1 : 1 ≤ l0 + 256 * l1) (hbl2 : l0 + 256 * l1 ≤ RTSP_ENCRYPTED_BLOCK_MAX)
    (hbl3 : l0 + 256 * l1 ≤ buffer_size)
    (hct : ct.length = l0 + 256 * l1 + 16) :
    rtsp_crypto_read_block true (sockOfBytes (l0 :: l1 :: ct)) ⟨true, some sess, freshRx⟩ buffer_size =
      match aeadDecrypt sess.decrypt_key (buildNonce sess.decrypt_nonce) [l0, l1] ct with
      | some pt =>
          (ReadRes.ok pt,
           ⟨true, some { sess with decrypt_nonce := (sess.decrypt_nonce + 1) % 2 ^ 64 }, freshRx⟩, [])
      | none => (ReadRes.fatal RtspErr.decFail, ⟨true, some sess, freshRx⟩, []) := by
  have hne : ct ≠ [] := by
    intro h
    rw [h] at hct
    simp at hct
  obtain ⟨c, cs, rfl⟩ := List.exists_cons_of_ne_nil hne
  unfold rtsp_crypto_read_block
  dsimp only [sockOfBytes, freshRx]
  simp only [Bool.true_eq_false, if_false, List.length_nil, Nat.sub_zero]
  rw [fillLoop_exact 2 l0 (l1 :: c :: cs) [] [] (by simp)]
  simp only [List.take_succ_cons, List.take_zero, List.drop_succ_cons, List.drop_zero,
    List.nil_append, List.append_nil]
  simp only [if_true, List.getD_cons_zero, List.getD_cons_succ]
  have hcond : ¬(l0 + 256 * l1 = 0 ∨ RTSP_ENCRYPTED_BLOCK_MAX < l0 + 256 * l1 ∨
      buffer_size < l0 + 256 * l1) := by
    push_neg
    exact ⟨by omega, hbl2, hbl3⟩
  rw [if_neg hcond]
  dsimp only [sockOfBytes]
  simp only [Option.getD_some, List.length_nil, Nat.sub_zero]
  rw [← hct, fillLoop_exact (c :: cs).length c cs [] [] (by simp), List.take_length,
    List.drop_length]
  dsimp only [sockOfBytes]
  simp only [List.nil_append, List.append_nil]
  cases hdec : aeadDecrypt sess.decrypt_key (buildNonce sess.decrypt_nonce) [l0, l1] (c :: cs) with
  | none => rfl
  | some pt =>
      have hptlen : pt.length = (c :: cs).length - 16 := aeadDecrypt_length hdec
      have : ¬(buffer_size < pt.length) := by
        rw [hptlen, hct]
        omega
      dsimp only
      rw [if_neg this]

/-! ## Helper lemmas: send side -/

theorem send_all_all (d : List Nat) (n : Nat) (rest : SendPlan)
    (hne : d ≠ []) (h : d.length ≤ n + 1) :
    send_all d (SendEv.acc n :: rest) = (true, d, rest) := by
  obtain ⟨b, bs, rfl⟩ := List.exists_cons_of_ne_nil hne
  have hk : min (n + 1) (bs.length + 1) = bs.length + 1 := by simp at h; omega
  have hdrop : (b :: bs).drop (bs.length + 1) = [] := by
    rw [show bs.length + 1 = (b :: bs).length by simp]
    exact List.drop_length _
  have htake : (b :: bs).take (bs.length + 1) = b :: bs := by
    rw [show bs.length + 1 = (b :: bs).length by simp]
    exact List.take_length _
  rw [send_all]
  simp only [List.length_cons, hk, hdrop, htake, send_all]
  simp

theorem writeLoop_single (sess : HapSession) (d : List Nat) (n1 n2 : Nat) (rest : SendPlan)
    (hd : d ≠ []) (hlen : d.length ≤ RTSP_ENCRYPTED_BLOCK_MAX)
    (h1 : 2 ≤ n1 + 1) (h2 : d.length + 16 ≤ n2 + 1) :
    writeLoop sess d (SendEv.acc n1 :: SendEv.acc n2 :: rest) =
      (true, { sess with encrypt_nonce := (sess.encrypt_nonce + 1) % 2 ^ 64 },
       le16 d.length ++
         aeadEncrypt sess.encrypt_key (buildNonce sess.encrypt_nonce) (le16 d.length) d,
       rest) := by
  obtain ⟨b, bs, rfl⟩ := List.exists_cons_of_ne_nil hd
  rw [writeLoop]
  have htake : (b :: bs).take RTSP_ENCRYPTED_BLOCK_MAX = b :: bs :=
    List.take_of_length_le hlen
  have hdrop : (b :: bs).drop RTSP_ENCRYPTED_BLOCK_MAX = [] :=
    List.drop_eq_nil_of_le hlen
  rw [htake, hdrop]
  rw [if_neg (by simp [aeadEncrypt_length])]
  rw [send_all_all (le16 (b :: bs).length) n1 (SendEv.acc n2 :: rest) (by simp [le16])
    (by simp [le16]; omega)]
  dsimp only
  rw [if_neg (by simp)]
  rw [send_all_all (aeadEncrypt sess.encrypt_key (buildNonce sess.encrypt_nonce)
    (le16 (b :: bs).length) (b :: bs)) n2 rest (by simp [aeadEncrypt])
    (by rw [aeadEncrypt_length]; omega)]
  dsimp only
  rw [if_neg (by simp)]
  simp [writeLoop]

/-! ## Helper lemmas: single-byte delivery steps -/

theorem fillLoop_pos_empty (need : Nat) (acc : List Nat) (h : 1 ≤ need) :
    fillLoop need [] acc = (FillTag.wb, acc, []) := by
  match need, h with
  | n + 1, _ => rfl

theorem read_block_step0 (sess : HapSession) (b : Nat) (buffer_size : Nat) :
    rtsp_crypto_read_block true [SockEv.bytes b []] ⟨true, some sess, freshRx⟩ buffer_size =
      (ReadRes.again, ⟨true, some sess, ⟨[b], 0, 0, none⟩⟩, []) := rfl

theorem read_block_step1 (sess : HapSession) (l0 l1 : Nat) (buffer_size : Nat)
    (hbl1 : 1 ≤ l0 + 256 * l1) (hbl2 : l0 + 256 * l1 ≤ RTSP_ENCRYPTED_BLOCK_MAX)
    (hbl3 : l0 + 256 * l1 ≤ buffer_size) :
    rtsp_crypto_read_block true [SockEv.bytes l1 []] ⟨true, some sess, ⟨[l0], 0, 0, none⟩⟩
        buffer_size =
      (ReadRes.again,
       ⟨true, some sess, ⟨[l0, l1], l0 + 256 * l1, l0 + 256 * l1 + 16, some []⟩⟩, []) := by
  unfold rtsp_crypto_read_block
  dsimp only
  rw [if_neg (by simp)]
  have hfill : fillLoop (2 - [l0].length) [SockEv.bytes l1 []] [l0] =
      (FillTag.full, [l0, l1], []) := rfl
  rw [hfill]
  dsimp only
  simp only [if_true, List.getD_cons_zero, List.getD_cons_succ]
  have hcond : ¬(l0 + 256 * l1 = 0 ∨ RTSP_ENCRYPTED_BLOCK_MAX < l0 + 256 * l1 ∨
      buffer_size < l0 + 256 * l1) := by
    push_neg
    exact ⟨by omega, hbl2, hbl3⟩
  rw [if_neg hcond]
  simp only [Bool.true_eq_false, if_false]
  simp only [Option.getD_some, List.length_nil, Nat.sub_zero]
  rw [fillLoop_pos_empty (l0 + 256 * l1 + 16) [] (by omega)]

theorem read_block_step_mid (sess : HapSession) (l0 l1 bl : Nat) (got : List Nat) (b : Nat)
    (buffer_size : Nat) (hlt : got.length + 1 < bl + 16) :
    rtsp_crypto_read_block true [SockEv.bytes b []]
        ⟨true, some sess, ⟨[l0, l1], bl, bl + 16, some got⟩⟩ buffer_size =
      (ReadRes.again,
       ⟨true, some sess, ⟨[l0, l1], bl, bl + 16, some (got ++ [b])⟩⟩, []) := by
  unfold rtsp_crypto_read_block
  dsimp only
  rw [if_neg (by simp)]
  have hfill0 : fillLoop (2 - [l0, l1].length) [SockEv.bytes b []] [l0, l1] =
      (FillTag.full, [l0, l1], [SockEv.bytes b []]) := rfl
  rw [hfill0]
  dsimp only
  rw [if_neg (by simp)]
  dsimp only [Option.getD_some]
  rw [fillLoop_all b [] (bl + 16 - got.length) got [] (by simp; omega)]
  simp only [List.length_cons, List.length_nil]
  rw [fillLoop_pos_empty ((bl + 16 - got.length) - 1) (got ++ [b]) (by omega)]

theorem read_block_step_last (sess : HapSession) (l0 l1 bl : Nat) (got : List Nat) (b : Nat)
    (buffer_size : Nat) (heq : got.length + 1 = bl + 16) (hbl3 : bl ≤ buffer_size) :
    rtsp_crypto_read_block true [SockEv.bytes b []]
        ⟨true, some sess, ⟨[l0, l1], bl, bl + 16, some got⟩⟩ buffer_size =
      match aeadDecrypt sess.decrypt_key (buildNonce sess.decrypt_nonce) [l0, l1] (got ++ [b]) with
      | some pt =>
          (ReadRes.ok pt,
           ⟨true, some { sess with decrypt_nonce := (sess.decrypt_nonce + 1) % 2 ^ 64 }, freshRx⟩, [])
      | none =>
          (ReadRes.fatal RtspErr.decFail, ⟨true, some sess, freshRx⟩, []) := by
  unfold rtsp_crypto_read_block
  dsimp only
  rw [if_neg (by simp)]
  have hfill0 : fillLoop (2 - [l0, l1].length) [SockEv.bytes b []] [l0, l1] =
      (FillTag.full, [l0, l1], [SockEv.bytes b []]) := rfl
  rw [hfill0]
  dsimp only
  rw [if_neg (by simp)]
  dsimp only [Option.getD_some]
  rw [fillLoop_all b [] (bl + 16 - got.length) got [] (by simp; omega)]
  simp only [List.length_cons, List.length_nil]
  have : bl + 16 - got.length - 1 = 0 := by omega
  rw [this]
  rw [show fillLoop 0 [] (got ++ [b]) = (FillTag.full, got ++ [b], []) from rfl]
  dsimp only
  cases hdec : aeadDecrypt sess.decrypt_key (buildNonce sess.decrypt_nonce) [l0, l1] (got ++ [b]) with
  | none => rfl
  | some pt =>
      have hptlen : pt.length = (got ++ [b]).length - 16 := aeadDecrypt_length hdec
      have hnot : ¬(buffer_size < pt.length) := by
        rw [hptlen]
        simp
        omega
      dsimp only
      rw [if_neg hnot]

theorem drive_payload (sess : HapSession) (l0 l1 bl : Nat) (buffer_size : Nat)
    (hbl3 : bl ≤ buffer_size) :
    ∀ (rest got : List Nat), rest ≠ [] → got.length + rest.length = bl + 16 →
    driveOneByte true buffer_size ⟨true, some sess, ⟨[l0, l1], bl, bl + 16, some got⟩⟩ rest =
      match aeadDecrypt sess.decrypt_key (buildNonce sess.decrypt_nonce) [l0, l1] (got ++ rest) with
      | some pt =>
          (ReadRes.ok pt,
           ⟨true, some { sess with decrypt_nonce := (sess.decrypt_nonce + 1) % 2 ^ 64 }, freshRx⟩)
      | none => (ReadRes.fatal RtspErr.decFail, ⟨true, some sess, freshRx⟩) := by
  intro rest
  induction rest with
  | nil => intro got h; exact absurd rfl h
  | cons x xs ih =>
      intro got _ hlen
      cases xs with
      | nil =>
          rw [driveOneByte]
          rw [read_block_step_last sess l0 l1 bl got x buffer_size (by simp at hlen; omega) hbl3]
          cases hdec : aeadDecrypt sess.decrypt_key (buildNonce sess.decrypt_nonce) [l0, l1]
              (got ++ [x]) with
          | none => rfl
          | some pt => rfl
      | cons y ys =>
          rw [driveOneByte]
          rw [read_block_step_mid sess l0 l1 bl got x buffer_size (by simp at hlen ⊢; omega)]
          dsimp only
          rw [ih (got ++ [x]) (by simp) (by simp at hlen ⊢; omega)]
          simp

/-! ## Helper lemmas: path analysis of the reader -/

theorem read_block_no_tooLarge (allocOk : Bool) (sock : Sock) (conn : RtspConn) (buffer_size : Nat)
    (hinv : RxInv conn.crypto_rx buffer_size) :
    (rtsp_crypto_read_block allocOk sock conn buffer_size).1 ≠ ReadRes.fatal RtspErr.tooLarge ∧
    (∀ pt, (rtsp_crypto_read_block allocOk sock conn buffer_size).1 = ReadRes.ok pt →
        1 ≤ pt.length ∧ pt.length ≤ buffer_size) := by
  obtain ⟨em, hs, rx⟩ := conn
  unfold rtsp_crypto_read_block
  cases hs with
  | none => simp
  | some sess =>
      dsimp only
      by_cases hem : em = false
      · subst hem
        simp
      · rw [if_neg hem]
        rcases hf1 : fillLoop (2 - rx.len_buf.length) sock rx.len_buf with ⟨tag1, acc, s1⟩
        cases tag1 with
        | wb => simp
        | rerr => simp
        | closed => simp
        | full =>
            dsimp only
            by_cases henc : rx.encrypted = none
            · rw [if_pos (by simpa using henc)]
              by_cases hval : acc.getD 0 0 + 256 * acc.getD 1 0 = 0 ∨
                  RTSP_ENCRYPTED_BLOCK_MAX < acc.getD 0 0 + 256 * acc.getD 1 0 ∨
                  buffer_size < acc.getD 0 0 + 256 * acc.getD 1 0
              · rw [if_pos hval]
                simp
              · rw [if_neg hval]
                by_cases hao : allocOk = false
                · rw [if_pos hao]
                  simp
                · rw [if_neg hao]
                  dsimp only
                  rcases hf2 : fillLoop (acc.getD 0 0 + 256 * acc.getD 1 0 + 16 -
                      (List.length ([] : List Nat))) s1 ([] : List Nat) with ⟨tag2, ct, s2⟩
                  simp only [List.length_nil, Nat.sub_zero] at hf2
                  simp only [Option.getD_some, List.length_nil, Nat.sub_zero, hf2]
                  cases tag2 with
                  | wb => simp
                  | rerr => simp
                  | closed => simp
                  | full =>
                      dsimp only
                      cases hdec : aeadDecrypt sess.decrypt_key
                          (buildNonce sess.decrypt_nonce) acc ct with
                      | none => simp
                      | some pt =>
                          obtain ⟨t, hct, htlen⟩ := fillLoop_full_parts _ _ _ _ _ hf2
                          have hctlen : ct.length =
                              acc.getD 0 0 + 256 * acc.getD 1 0 + 16 := by
                            rw [hct]
                            simp [htlen]
                          have hpt : pt.length = acc.getD 0 0 + 256 * acc.getD 1 0 := by
                            have := aeadDecrypt_length hdec
                            omega
                          push_neg at hval
                          have hno : ¬(buffer_size < pt.length) := by omega
                          dsimp only
                          rw [if_neg hno]
                          constructor
                          · simp
                          · intro pt' hpt'
                            simp at hpt'
                            subst hpt'
                            omega
            · obtain ⟨got, hgot⟩ := Option.ne_none_iff_exists'.mp henc
              obtain ⟨hl2, hbl1, hblB, helen, hgotlen⟩ := hinv.2 got hgot
              dsimp only at hl2 hbl1 hblB helen hgotlen
              rw [if_neg (by simp [hgot])]
              dsimp only
              rcases hf2 : fillLoop (rx.encrypted_len - (rx.encrypted.getD []).length)
                  s1 (rx.encrypted.getD []) with ⟨tag2, ct, s2⟩
              simp only [hgot, Option.getD_some] at hf2 ⊢
              cases tag2 with
              | wb => simp
              | rerr => simp
              | closed => simp
              | full =>
                  dsimp only
                  cases hdec : aeadDecrypt sess.decrypt_key
                      (buildNonce sess.decrypt_nonce) acc ct with
                  | none => simp
                  | some pt =>
                      obtain ⟨t, hct, htlen⟩ := fillLoop_full_parts _ _ _ _ _ hf2
                      have hctlen : ct.length = rx.encrypted_len := by
                        rw [hct]
                        simp [htlen]
                        omega
                      have hpt : pt.length = rx.block_len := by
                        have := aeadDecrypt_length hdec
                        omega
                      have hno : ¬(buffer_size < pt.length) := by omega
                      dsimp only
                      rw [if_neg hno]
                      constructor
                      · simp
                      · intro pt' hpt'
                        simp at hpt'
                        subst hpt'
                        omega

theorem read_block_fatal_reset (allocOk : Bool) (sock : Sock) (conn : RtspConn) (buffer_size : Nat)
    (hinv : RxInv conn.crypto_rx buffer_size) (e : RtspErr) (conn' : RtspConn) (sock' : Sock)
    (hrun : rtsp_crypto_read_block allocOk sock conn buffer_size = (ReadRes.fatal e, conn', sock'))
    (hnt : e ≠ RtspErr.teardown) :
    conn'.crypto_rx.encrypted = none ∧ conn'.crypto_rx.block_len = 0 ∧
    conn'.crypto_rx.encrypted_len = 0 ∧
    (((fillLoop (2 - conn.crypto_rx.len_buf.length) sock conn.crypto_rx.len_buf).1 = FillTag.rerr ∨
      (fillLoop (2 - conn.crypto_rx.len_buf.length) sock conn.crypto_rx.len_buf).1 = FillTag.closed) →
      (e = RtspErr.rerr ∨ e = RtspErr.closed) ∧
      conn.crypto_rx.encrypted = none ∧
      conn'.crypto_rx.len_buf =
        (fillLoop (2 - conn.crypto_rx.len_buf.length) sock conn.crypto_rx.len_buf).2.1 ∧
      IsPrefixList conn.crypto_rx.len_buf conn'.crypto_rx.len_buf ∧
      conn'.crypto_rx.len_buf.length < 2) ∧
    ((fillLoop (2 - conn.crypto_rx.len_buf.length) sock conn.crypto_rx.len_buf).1 ≠ FillTag.rerr →
     (fillLoop (2 - conn.crypto_rx.len_buf.length) sock conn.crypto_rx.len_buf).1 ≠ FillTag.closed →
      conn'.crypto_rx.len_buf = []) := by
  obtain ⟨em, hs, rx⟩ := conn
  unfold rtsp_crypto_read_block at hrun
  cases hs with
  | none => simp at hrun; exact absurd hrun.1.symm hnt
  | some sess =>
      dsimp only at hrun
      dsimp only
      by_cases hem : em = false
      · rw [if_pos (by simp [hem])] at hrun
        simp at hrun
        exact absurd hrun.1.symm hnt
      · rw [if_neg (by simpa using hem)] at hrun
        rcases hf1 : fillLoop (2 - rx.len_buf.length) sock rx.len_buf with ⟨tag1, acc, s1⟩
        rw [hf1] at hrun
        cases tag1 with
        | wb => simp at hrun
        | rerr =>
            simp at hrun
            obtain ⟨he, hc, _⟩ := hrun
            subst hc
            dsimp only
            have hencN : rx.encrypted = none := by
              by_contra hne
              obtain ⟨got, hgot⟩ := Option.ne_none_iff_exists'.mp hne
              obtain ⟨hl2, _, _, _, _⟩ := hinv.2 got hgot
              dsimp only at hl2
              rw [hl2] at hf1
              simp [fillLoop] at hf1
            obtain ⟨hb0, he0⟩ := hinv.1 hencN
            dsimp only at hb0 he0
            have hlen2 : rx.len_buf.length < 2 := by
              by_contra hge
              push_neg at hge
              have h20 : 2 - rx.len_buf.length = 0 := by omega
              rw [h20] at hf1
              simp [fillLoop] at hf1
            have hnf := fillLoop_not_full (2 - rx.len_buf.length) sock rx.len_buf
              (by rw [hf1]; simp)
            rw [hf1] at hnf
            dsimp only at hnf
            obtain ⟨hpre, hlt⟩ := hnf
            refine ⟨hencN, hb0, he0, ?_, ?_⟩
            · intro _
              exact ⟨Or.inl he.symm, hencN, rfl, hpre, by omega⟩
            · intro hx _
              exact absurd rfl hx
        | closed =>
            simp at hrun
            obtain ⟨he, hc, _⟩ := hrun
            subst hc
            dsimp only
            have hencN : rx.encrypted = none := by
              by_contra hne
              obtain ⟨got, hgot⟩ := Option.ne_none_iff_exists'.mp hne
              obtain ⟨hl2, _, _, _, _⟩ := hinv.2 got hgot
              dsimp only at hl2
              rw [hl2] at hf1
              simp [fillLoop] at hf1
            obtain ⟨hb0, he0⟩ := hinv.1 hencN
            dsimp only at hb0 he0
            have hlen2 : rx.len_buf.length < 2 := by
              by_contra hge
              push_neg at hge
              have h20 : 2 - rx.len_buf.length = 0 := by omega
              rw [h20] at hf1
              simp [fillLoop] at hf1
            have hnf := fillLoop_not_full (2 - rx.len_buf.length) sock rx.len_buf
              (by rw [hf1]; simp)
            rw [hf1] at hnf
            dsimp only at hnf
            obtain ⟨hpre, hlt⟩ := hnf
            refine ⟨hencN, hb0, he0, ?_, ?_⟩
            · intro _
              exact ⟨Or.inr he.symm, hencN, rfl, hpre, by omega⟩
            · intro _ hx
              exact absurd rfl hx
        | full =>
            dsimp only at hrun
            by_cases henc : rx.encrypted = none
            · rw [if_pos (by simpa using henc)] at hrun
              by_cases hval : acc.getD 0 0 + 256 * acc.getD 1 0 = 0 ∨
                  RTSP_ENCRYPTED_BLOCK_MAX < acc.getD 0 0 + 256 * acc.getD 1 0 ∨
                  buffer_size < acc.getD 0 0 + 256 * acc.getD 1 0
              · rw [if_pos hval] at hrun
                simp at hrun
                obtain ⟨_, hc, _⟩ := hrun
                subst hc
                obtain ⟨_, he0⟩ := hinv.1 henc
                dsimp only at he0
                exact ⟨henc, rfl, he0, fun hor => hor.elim (fun h => FillTag.noConfusion h) (fun h => FillTag.noConfusion h), fun _ _ => rfl⟩
              · rw [if_neg hval] at hrun
                by_cases hao : allocOk = false
                · rw [if_pos hao] at hrun
                  simp at hrun
                  obtain ⟨_, hc, _⟩ := hrun
                  subst hc
                  exact ⟨henc, rfl, rfl, fun hor => hor.elim (fun h => FillTag.noConfusion h) (fun h => FillTag.noConfusion h), fun _ _ => rfl⟩
                · rw [if_neg hao] at hrun
                  dsimp only at hrun
                  rcases hf2 : fillLoop (acc.getD 0 0 + 256 * acc.getD 1 0 + 16 -
                      (List.length ([] : List Nat))) s1 ([] : List Nat) with ⟨tag2, ct, s2⟩
                  simp only [List.length_nil, Nat.sub_zero] at hf2
                  simp only [Option.getD_some, List.length_nil, Nat.sub_zero, hf2] at hrun
                  cases tag2 with
                  | wb => simp at hrun
                  | rerr =>
                      simp at hrun
                      obtain ⟨_, hc, _⟩ := hrun
                      subst hc
                      exact ⟨rfl, rfl, rfl, fun hor => hor.elim (fun h => FillTag.noConfusion h) (fun h => FillTag.noConfusion h), fun _ _ => rfl⟩
                  | closed =>
                      simp at hrun
                      obtain ⟨_, hc, _⟩ := hrun
                      subst hc
                      exact ⟨rfl, rfl, rfl, fun hor => hor.elim (fun h => FillTag.noConfusion h) (fun h => FillTag.noConfusion h), fun _ _ => rfl⟩
                  | full =>
                      dsimp only at hrun
                      cases hdec : aeadDecrypt sess.decrypt_key
                          (buildNonce sess.decrypt_nonce) acc ct with
                      | none =>
                          rw [hdec] at hrun
                          simp at hrun
                          obtain ⟨_, hc, _⟩ := hrun
                          subst hc
                          exact ⟨rfl, rfl, rfl, fun hor => hor.elim (fun h => FillTag.noConfusion h) (fun h => FillTag.noConfusion h), fun _ _ => rfl⟩
                      | some pt =>
                          rw [hdec] at hrun
                          dsimp only at hrun
                          by_cases hbig : buffer_size < pt.length
                          · rw [if_pos hbig] at hrun
                            simp at hrun
                            obtain ⟨_, hc, _⟩ := hrun
                            subst hc
                            exact ⟨rfl, rfl, rfl, fun hor => hor.elim (fun h => FillTag.noConfusion h) (fun h => FillTag.noConfusion h), fun _ _ => rfl⟩
                          · rw [if_neg hbig] at hrun
                            simp at hrun
            · obtain ⟨got, hgot⟩ := Option.ne_none_iff_exists'.mp henc
              rw [if_neg (by simp [hgot])] at hrun
              dsimp only at hrun
              rcases hf2 : fillLoop (rx.encrypted_len - (rx.encrypted.getD []).length)
                  s1 (rx.encrypted.getD []) with ⟨tag2, ct, s2⟩
              simp only [hgot, Option.getD_some] at hf2 hrun
              rw [hf2] at hrun
              cases tag2 with
              | wb => simp at hrun
              | rerr =>
                  simp at hrun
                  obtain ⟨_, hc, _⟩ := hrun
                  subst hc
                  exact ⟨rfl, rfl, rfl, fun hor => hor.elim (fun h => FillTag.noConfusion h) (fun h => FillTag.noConfusion h), fun _ _ => rfl⟩
              | closed =>
                  simp at hrun
                  obtain ⟨_, hc, _⟩ := hrun
                  subst hc
                  exact ⟨rfl, rfl, rfl, fun hor => hor.elim (fun h => FillTag.noConfusion h) (fun h => FillTag.noConfusion h), fun _ _ => rfl⟩
              | full =>
                  dsimp only at hrun
                  cases hdec : aeadDecrypt sess.decrypt_key
                      (buildNonce sess.decrypt_nonce) acc ct with
                  | none =>
                      rw [hdec] at hrun
                      simp at hrun
                      obtain ⟨_, hc, _⟩ := hrun
                      subst hc
                      exact ⟨rfl, rfl, rfl, fun hor => hor.elim (fun h => FillTag.noConfusion h) (fun h => FillTag.noConfusion h), fun _ _ => rfl⟩
                  | some pt =>
                      rw [hdec] at hrun
                      dsimp only at hrun
                      by_cases hbig : buffer_size < pt.length
                      · rw [if_pos hbig] at hrun
                        simp at hrun
                        obtain ⟨_, hc, _⟩ := hrun
                        subst hc
                        exact ⟨rfl, rfl, rfl, fun hor => hor.elim (fun h => FillTag.noConfusion h) (fun h => FillTag.noConfusion h), fun _ _ => rfl⟩
                      · rw [if_neg hbig] at hrun
                        simp at hrun

/-! ## Helper lemmas: chunking and the write loop -/
theorem isPrefixList_nil (b : List Nat) : IsPrefixList [] b := ⟨b, rfl⟩

theorem isPrefixList_refl (a : List Nat) : IsPrefixList a a := ⟨[], by simp⟩

theorem isPrefixList_append_left {a b : List Nat} (x : List Nat)
    (h : IsPrefixList a b) : IsPrefixList (x ++ a) (x ++ b) := by
  obtain ⟨t, rfl⟩ := h
  exact ⟨t, by simp⟩

theorem isPrefixList_extend {a b : List Nat} (e : List Nat)
    (h : IsPrefixList a b) : IsPrefixList a (b ++ e) := by
  obtain ⟨t, rfl⟩ := h
  exact ⟨t ++ e, by simp⟩

theorem send_all_spec : ∀ (d : List Nat) (plan : SendPlan),
    ((send_all d plan).1 = true → (send_all d plan).2.1 = d) ∧
    ((send_all d plan).1 = false → IsPrefixList (send_all d plan).2.1 d) := by
  intro d plan
  induction d, plan using send_all.induct with
  | case1 plan => simp [send_all]
  | case2 b bs => simp [send_all, isPrefixList_nil]
  | case3 b bs rest => simp [send_all, isPrefixList_nil]
  | case4 b bs n rest k ih =>
      constructor
      · intro h
        rw [send_all] at h ⊢
        dsimp only at h ⊢
        have h1 := ih.1 h
        rw [h1]
        exact List.take_append_drop _ _
      · intro h
        rw [send_all] at h ⊢
        dsimp only at h ⊢
        have h1 := ih.2 h
        obtain ⟨t, ht⟩ := h1
        exact ⟨t, by rw [List.append_assoc, ht]; exact List.take_append_drop _ _⟩





theorem chunksOf_cons (b : Nat) (bs : List Nat) :
    chunksOf (b :: bs) =
      (b :: bs).take RTSP_ENCRYPTED_BLOCK_MAX ::
        chunksOf ((b :: bs).drop RTSP_ENCRYPTED_BLOCK_MAX) := by
  rw [chunksOf]

theorem chunksOf_bounds : ∀ (d : List Nat), ∀ c ∈ chunksOf d,
    1 ≤ c.length ∧ c.length ≤ RTSP_ENCRYPTED_BLOCK_MAX := by
  intro d
  induction d using chunksOf.induct with
  | case1 => simp [chunksOf]
  | case2 b bs ih =>
      intro c hc
      rw [chunksOf_cons] at hc
      rcases List.mem_cons.mp hc with hc1 | hc1
      · subst hc1
        constructor
        · simp [RTSP_ENCRYPTED_BLOCK_MAX]
        · simp
      · exact ih c hc1

theorem chunksOf_count : ∀ (d : List Nat),
    (chunksOf d).length =
      (d.length + RTSP_ENCRYPTED_BLOCK_MAX - 1) / RTSP_ENCRYPTED_BLOCK_MAX := by
  intro d
  induction d using chunksOf.induct with
  | case1 => simp [chunksOf, RTSP_ENCRYPTED_BLOCK_MAX]
  | case2 b bs ih =>
      rw [chunksOf_cons]
      simp only [List.length_cons, ih, List.length_drop]
      simp only [RTSP_ENCRYPTED_BLOCK_MAX] at *
      omega

theorem chunksOf_join : ∀ (d : List Nat), (chunksOf d).flatten = d := by
  intro d
  induction d using chunksOf.induct with
  | case1 => simp [chunksOf]
  | case2 b bs ih =>
      rw [chunksOf_cons]
      simp only [List.flatten_cons, ih]
      exact List.take_append_drop _ _





theorem writeLoop_run : ∀ (N : Nat) (sess : HapSession) (data : List Nat) (plan : SendPlan),
    data.length ≤ N → sess.encrypt_nonce < 2 ^ 64 →
    ∃ k, k ≤ (chunksOf data).length ∧
      (writeLoop sess data plan).2.1.encrypt_nonce = (sess.encrypt_nonce + k) % 2 ^ 64 ∧
      ((writeLoop sess data plan).1 = true ↔ k = (chunksOf data).length) ∧
      ((writeLoop sess data plan).1 = true →
        (writeLoop sess data plan).2.2.1 =
          framesOf sess.encrypt_key sess.encrypt_nonce (chunksOf data)) ∧
      ((writeLoop sess data plan).1 = false →
        IsPrefixList (framesOf sess.encrypt_key sess.encrypt_nonce ((chunksOf data).take k))
            (writeLoop sess data plan).2.2.1 ∧
        IsPrefixList (writeLoop sess data plan).2.2.1
            (framesOf sess.encrypt_key sess.encrypt_nonce ((chunksOf data).take (k + 1)))) := by
  intro N
  induction N with
  | zero =>
      intro sess data plan hlen hn
      have hd : data = [] := by
        cases data with
        | nil => rfl
        | cons x xs => simp at hlen
      subst hd
      refine ⟨0, by simp [chunksOf], ?_, ?_, ?_, ?_⟩
      · simp only [writeLoop]
        omega
      · simp [writeLoop, chunksOf]
      · intro _
        simp [writeLoop, chunksOf, framesOf]
      · intro h
        rw [writeLoop] at h
        simp at h
  | succ n ihN =>
      intro sess data plan hlen hn
      cases data with
      | nil =>
          refine ⟨0, by simp [chunksOf], ?_, ?_, ?_, ?_⟩
          · simp only [writeLoop]
            omega
          · simp [writeLoop, chunksOf]
          · intro _
            simp [writeLoop, chunksOf, framesOf]
          · intro h
            rw [writeLoop] at h
            simp at h
      | cons b bs =>
          rcases hw : writeLoop sess (b :: bs) plan with ⟨ok, sess2, tr, plan2⟩
          rw [writeLoop] at hw
          rw [if_neg (by simp [aeadEncrypt_length])] at hw
          dsimp only at hw
          rcases h1 : send_all (le16 ((b :: bs).take RTSP_ENCRYPTED_BLOCK_MAX).length) plan
            with ⟨ok1, tr1, p1⟩
          rw [h1] at hw
          dsimp only at hw
          cases ok1 with
          | false =>
              simp only [Bool.false_eq_true, if_true, if_pos] at hw
              obtain ⟨hok, hsess, htr, hplan⟩ :
                  false = ok ∧ sess = sess2 ∧ tr1 = tr ∧ p1 = plan2 := by simpa using hw
              subst hok
              subst hsess
              subst htr
              subst hplan
              refine ⟨0, by simp, by dsimp only; omega, ?_, by simp, ?_⟩
              · dsimp only
                rw [chunksOf_cons]
                simp
              · intro _
                dsimp only
                constructor
                · simpa [framesOf] using isPrefixList_nil tr1
                · have hpre : IsPrefixList tr1
                      (le16 ((b :: bs).take RTSP_ENCRYPTED_BLOCK_MAX).length) := by
                    have := (send_all_spec
                      (le16 ((b :: bs).take RTSP_ENCRYPTED_BLOCK_MAX).length) plan).2
                    rw [h1] at this
                    exact this rfl
                  rw [chunksOf_cons]
                  simp only [List.take_succ_cons, List.take_zero, framesOf]
                  simp only [List.append_nil]
                  exact isPrefixList_extend _ hpre
          | true =>
              simp only [Bool.true_eq_false, if_false] at hw
              rcases h2 : send_all (aeadEncrypt sess.encrypt_key (buildNonce sess.encrypt_nonce)
                  (le16 ((b :: bs).take RTSP_ENCRYPTED_BLOCK_MAX).length)
                  ((b :: bs).take RTSP_ENCRYPTED_BLOCK_MAX)) p1 with ⟨ok2, tr2, p2⟩
              rw [h2] at hw
              dsimp only at hw
              have htr1 : tr1 = le16 ((b :: bs).take RTSP_ENCRYPTED_BLOCK_MAX).length := by
                have := (send_all_spec
                  (le16 ((b :: bs).take RTSP_ENCRYPTED_BLOCK_MAX).length) plan).1
                rw [h1] at this
                exact this rfl
              cases ok2 with
              | false =>
                  simp only [Bool.false_eq_true, if_true, if_pos] at hw
                  obtain ⟨hok, hsess, htr, hplan⟩ :
                      false = ok ∧ sess = sess2 ∧ tr1 ++ tr2 = tr ∧ p2 = plan2 := by
                    simpa using hw
                  subst hok
                  subst hsess
                  subst htr
                  subst hplan
                  refine ⟨0, by simp, by dsimp only; omega, ?_, by simp, ?_⟩
                  · dsimp only
                    rw [chunksOf_cons]
                    simp
                  · intro _
                    dsimp only
                    constructor
                    · simpa [framesOf] using isPrefixList_nil (tr1 ++ tr2)
                    · have hpre : IsPrefixList tr2
                          (aeadEncrypt sess.encrypt_key (buildNonce sess.encrypt_nonce)
                            (le16 ((b :: bs).take RTSP_ENCRYPTED_BLOCK_MAX).length)
                            ((b :: bs).take RTSP_ENCRYPTED_BLOCK_MAX)) := by
                        have := (send_all_spec (aeadEncrypt sess.encrypt_key
                          (buildNonce sess.encrypt_nonce)
                          (le16 ((b :: bs).take RTSP_ENCRYPTED_BLOCK_MAX).length)
                          ((b :: bs).take RTSP_ENCRYPTED_BLOCK_MAX)) p1).2
                        rw [h2] at this
                        exact this rfl
                      rw [chunksOf_cons]
                      simp only [List.take_succ_cons, List.take_zero, framesOf]
                      simp only [List.append_nil, htr1]
                      exact isPrefixList_append_left _ hpre
              | true =>
                  have htr2 : tr2 = aeadEncrypt sess.encrypt_key (buildNonce sess.encrypt_nonce)
                      (le16 ((b :: bs).take RTSP_ENCRYPTED_BLOCK_MAX).length)
                      ((b :: bs).take RTSP_ENCRYPTED_BLOCK_MAX) := by
                    have := (send_all_spec (aeadEncrypt sess.encrypt_key
                      (buildNonce sess.encrypt_nonce)
                      (le16 ((b :: bs).take RTSP_ENCRYPTED_BLOCK_MAX).length)
                      ((b :: bs).take RTSP_ENCRYPTED_BLOCK_MAX)) p1).1
                    rw [h2] at this
                    exact this rfl
                  simp only [Bool.true_eq_false, if_false] at hw
                  obtain ⟨k', hk'le, hn', hok', htrOk', htrFail'⟩ := ihN
                    { sess with encrypt_nonce := (sess.encrypt_nonce + 1) % 2 ^ 64 }
                    ((b :: bs).drop RTSP_ENCRYPTED_BLOCK_MAX) p2
                    (by simp [RTSP_ENCRYPTED_BLOCK_MAX] at hlen ⊢; omega)
                    (Nat.mod_lt _ (by norm_num))
                  rcases hw3 : writeLoop
                      { sess with encrypt_nonce := (sess.encrypt_nonce + 1) % 2 ^ 64 }
                      ((b :: bs).drop RTSP_ENCRYPTED_BLOCK_MAX) p2 with ⟨ok3, sess3, tr3, p3⟩
                  rw [hw3] at hw hn' hok' htrOk' htrFail'
                  dsimp only at hw hn' hok' htrOk' htrFail'
                  obtain ⟨hok, hsess, htr, hplan⟩ :
                      ok3 = ok ∧ sess3 = sess2 ∧ tr1 ++ tr2 ++ tr3 = tr ∧ p3 = plan2 := by
                    simpa using hw
                  subst hok
                  subst hsess
                  subst htr
                  subst hplan
                  have hnonceStep : ∀ j : Nat, ((sess.encrypt_nonce + 1) % 2 ^ 64 + j) % 2 ^ 64 =
                      (sess.encrypt_nonce + (j + 1)) % 2 ^ 64 := by
                    intro j
                    rw [Nat.mod_add_mod]
                    congr 1
                    omega
                  refine ⟨k' + 1, ?_, ?_, ?_, ?_, ?_⟩
                  · rw [chunksOf_cons]
                    simpa using hk'le
                  · dsimp only
                    rw [hn', hnonceStep]
                  · dsimp only
                    rw [chunksOf_cons]
                    simp only [List.length_cons]
                    constructor
                    · intro h
                      have := hok'.mp h
                      omega
                    · intro h
                      exact hok'.mpr (by omega)
                  · intro h
                    dsimp only at h ⊢
                    rw [chunksOf_cons]
                    simp only [framesOf]
                    rw [htrOk' h, htr1, htr2]
                  · intro h
                    dsimp only at h ⊢
                    obtain ⟨hp1, hp2⟩ := htrFail' h
                    rw [chunksOf_cons]
                    constructor
                    · simp only [List.take_succ_cons, framesOf]
                      rw [htr1, htr2]
                      simp only [List.append_assoc]
                      exact isPrefixList_append_left _ (isPrefixList_append_left _ hp1)
                    · simp only [List.take_succ_cons, framesOf]
                      rw [htr1, htr2]
                      simp only [List.append_assoc]
                      exact isPrefixList_append_left _ (isPrefixList_append_left _ hp2)

/-! ## Helper lemmas: request parsing -/

theorem takeWhile_all {p : Nat → Bool} : ∀ {l : List Nat}, (∀ x ∈ l, p x = true) →
    l.takeWhile p = l := by
  intro l h
  induction l with
  | nil => rfl
  | cons a as ih =>
      rw [List.takeWhile_cons, h a (by simp), ih fun x hx => h x (by simp [hx])]
      simp

theorem splitFirstCRLF_no13 : ∀ {l : List Nat}, (∀ x ∈ l, x ≠ 13) →
    splitFirstCRLF l = none := by
  intro l
  induction l with
  | nil => intro _; rfl
  | cons a as ih =>
      intro h
      cases as with
      | nil => rfl
      | cons b bs =>
          rw [splitFirstCRLF, if_neg (by simp [h a (by simp)])]
          rw [ih fun x hx => h x (by simp [hx])]
          rfl

theorem splitFirstCRLF_boundary : ∀ {l : List Nat} (r : List Nat), (∀ x ∈ l, x ≠ 13) →
    splitFirstCRLF (l ++ 13 :: 10 :: r) = some (l, r) := by
  intro l
  induction l with
  | nil => intro r _; rw [List.nil_append, splitFirstCRLF, if_pos ⟨rfl, rfl⟩]
  | cons a as ih =>
      intro r h
      have hcons : (a :: as) ++ 13 :: 10 :: r = a :: (as ++ 13 :: 10 :: r) := rfl
      rw [hcons]
      have hne : as ++ 13 :: 10 :: r ≠ [] := by simp
      obtain ⟨b, bs, hb⟩ := List.exists_cons_of_ne_nil hne
      rw [hb, splitFirstCRLF]
      have hab : ¬(a = 13 ∧ b = 10) := by
        intro ⟨ha, _⟩
        exact h a (by simp) ha
      rw [if_neg hab, ← hb, ih r fun x hx => h x (by simp [hx])]
      rfl

theorem lineLenOf_no13 {l : List Nat} (h : ∀ x ∈ l, x ≠ 13) : lineLenOf l = l.length := by
  rw [lineLenOf, splitFirstCRLF_no13 h]

theorem lineLenOf_boundary {l : List Nat} (r : List Nat) (h : ∀ x ∈ l, x ≠ 13) :
    lineLenOf (l ++ 13 :: 10 :: r) = l.length := by
  rw [lineLenOf, splitFirstCRLF_boundary r h]





theorem fhe_short : ∀ {l : List Nat}, l.length < 4 → rtsp_find_header_end l = none := by
  intro l h
  match l, h with
  | [], _ => rfl
  | [_], _ => rfl
  | [_, _], _ => rfl
  | [_, _, _], _ => rfl

theorem fhe_cons_ne13 {a : Nat} (t : List Nat) (ha : a ≠ 13) :
    rtsp_find_header_end (a :: t) = (rtsp_find_header_end t).map (· + 1) := by
  match t with
  | [] => rfl
  | [_] => rfl
  | [_, _] => rfl
  | b :: c :: d :: rest =>
      rw [rtsp_find_header_end, if_neg (by simp [ha])]

theorem fhe_app_no13 : ∀ {l : List Nat} (r : List Nat), (∀ x ∈ l, x ≠ 13) →
    rtsp_find_header_end (l ++ r) = (rtsp_find_header_end r).map (· + l.length) := by
  intro l
  induction l with
  | nil => intro r _; simp
  | cons a as ih =>
      intro r h
      rw [List.cons_append, fhe_cons_ne13 _ (h a (by simp)),
        ih r fun x hx => h x (by simp [hx])]
      rw [Option.map_map]
      rcases rtsp_find_header_end r with _ | n
      · rfl
      · dsimp only [Option.map, Function.comp]
        congr 1

theorem fhe_crlf_step (r : List Nat) (hr : ∀ h t, r = h :: t → h ≠ 13) :
    rtsp_find_header_end (13 :: 10 :: r) = (rtsp_find_header_end r).map (· + 2) := by
  match r with
  | [] => rfl
  | [_] => rfl
  | c :: d :: rest =>
      have hc : c ≠ 13 := hr c (d :: rest) rfl
      rw [rtsp_find_header_end, if_neg (by simp [hc])]
      rw [fhe_cons_ne13 _ (by norm_num)]
      rcases rtsp_find_header_end (c :: d :: rest) with _ | n
      · rfl
      · simp

theorem fhe_terminator (body : List Nat) :
    rtsp_find_header_end (13 :: 10 :: 13 :: 10 :: body) = some 0 := by
  rw [rtsp_find_header_end, if_pos ⟨rfl, rfl, rfl, rfl⟩]





theorem headerJoin_cons (l : List Nat) (x : List Nat) (xs : List (List Nat)) :
    headerJoin (l :: x :: xs) = l ++ 13 :: 10 :: headerJoin (x :: xs) := rfl

theorem headerJoin_head : ∀ (l : List Nat) (ls : List (List Nat)), l ≠ [] →
    ∃ h t, headerJoin (l :: ls) = h :: t ∧ h ∈ l := by
  intro l ls hne
  obtain ⟨h, t, hh⟩ := List.exists_cons_of_ne_nil hne
  cases ls with
  | nil => exact ⟨h, t, by simp [headerJoin, hh], by simp [hh]⟩
  | cons x xs =>
      refine ⟨h, t ++ 13 :: 10 :: headerJoin (x :: xs), ?_, by simp [hh]⟩
      rw [headerJoin_cons, hh]
      rfl

theorem fhe_header : ∀ (L : List (List Nat)), L ≠ [] →
    (∀ l ∈ L, l ≠ [] ∧ ∀ x ∈ l, x ≠ 13) → ∀ (body : List Nat),
    rtsp_find_header_end (headerJoin L ++ 13 :: 10 :: 13 :: 10 :: body) =
      some (headerJoin L).length := by
  intro L
  induction L with
  | nil => intro h; exact absurd rfl h
  | cons l ls ih =>
      intro _ hl body
      cases ls with
      | nil =>
          have : headerJoin [l] = l := rfl
          rw [this, fhe_app_no13 _ (hl l (by simp)).2, fhe_terminator]
          simp
      | cons x xs =>
          rw [headerJoin_cons]
          have h13 : ∀ y ∈ l, y ≠ 13 := (hl l (by simp)).2
          rw [List.append_assoc, fhe_app_no13 _ h13]
          obtain ⟨h, t, hh, hmem⟩ := headerJoin_head x xs (hl x (by simp)).1
          have hne13 : h ≠ 13 := (hl x (by simp)).2 h hmem
          have hstep : rtsp_find_header_end
              (13 :: 10 :: (headerJoin (x :: xs) ++ 13 :: 10 :: 13 :: 10 :: body)) =
              (rtsp_find_header_end (headerJoin (x :: xs) ++ 13 :: 10 :: 13 :: 10 :: body)).map
                (· + 2) := by
            apply fhe_crlf_step
            intro hh' tt' heq
            rw [hh] at heq
            simp at heq
            rw [← heq.1]
            exact hne13
          rw [List.cons_append, List.cons_append]
          rw [hstep, ih (by simp) (fun a ha => hl a (by simp [ha])) body]
          simp
          omega





theorem scan_skip_mid (key : List Nat) : ∀ (l r : List Nat), (∀ x ∈ l, x ≠ 13) →
    findScan key (l ++ 13 :: 10 :: r) false = findScan key r true := by
  intro l
  induction l with
  | nil =>
      intro r _
      rw [List.nil_append, findScan, if_pos ⟨rfl, rfl⟩]
  | cons a as ih =>
      intro r h
      have ha : a ≠ 13 := h a (by simp)
      have hne : as ++ 13 :: 10 :: r ≠ [] := by simp
      obtain ⟨b, bs, hb⟩ := List.exists_cons_of_ne_nil hne
      rw [List.cons_append, hb, findScan, if_neg (by simp [ha])]
      rw [if_neg (by simp)]
      rw [← hb, ih r fun x hx => h x (by simp [hx])]

theorem scan_skip_line (key : List Nat) (l r : List Nat) (h13 : ∀ x ∈ l, x ≠ 13)
    (hnm : ¬matchesKeyCI key l) :
    findScan key (l ++ 13 :: 10 :: r) true = findScan key r true := by
  cases l with
  | nil => rw [List.nil_append, findScan, if_pos ⟨rfl, rfl⟩]
  | cons a as =>
      have ha : a ≠ 13 := h13 a (by simp)
      have hne2 : as ++ 13 :: 10 :: r ≠ [] := by simp
      obtain ⟨b, bs, hb⟩ := List.exists_cons_of_ne_nil hne2
      have h3 : (a :: as) ++ 13 :: 10 :: r = a :: b :: bs := by rw [List.cons_append, hb]
      have hguard : ¬((true = true) ∧ key.length ≤ lineLenOf (a :: b :: bs) ∧
          ciEqList ((a :: b :: bs).take key.length) key = true) := by
        rw [← h3, lineLenOf_boundary r h13]
        intro ⟨_, hlen, hci⟩
        apply hnm
        rw [List.take_append_of_le_length hlen] at hci
        exact ⟨hlen, hci⟩
      rw [h3, findScan, if_neg (by simp [ha]), if_neg hguard, ← hb]
      exact scan_skip_mid key as r fun x hx => h13 x (by simp [hx])

theorem scan_found_last (key v : List Nat) (h13 : ∀ x ∈ v, x ≠ 13)
    (hm : matchesKeyCI key v) (hne : v ≠ []) :
    findScan key v true =
      some ((v.drop key.length).dropWhile fun x => x == 32 || x == 9) := by
  obtain ⟨a, as, rfl⟩ := List.exists_cons_of_ne_nil hne
  cases as with
  | nil =>
      rw [findScan, if_pos ⟨rfl, by rw [lineLenOf_no13 h13]; exact hm.1, hm.2⟩]
  | cons b bs =>
      have ha : a ≠ 13 := h13 a (by simp)
      rw [findScan, if_neg (by simp [ha]),
        if_pos ⟨rfl, by rw [lineLenOf_no13 h13]; exact hm.1, hm.2⟩]

theorem scan_found_mid (key v : List Nat) (r : List Nat) (h13 : ∀ x ∈ v, x ≠ 13)
    (hm : matchesKeyCI key v) (hne : v ≠ []) :
    findScan key (v ++ 13 :: 10 :: r) true =
      some (((v ++ 13 :: 10 :: r).drop key.length).dropWhile fun x => x == 32 || x == 9) := by
  obtain ⟨a, as, rfl⟩ := List.exists_cons_of_ne_nil hne
  have ha : a ≠ 13 := h13 a (by simp)
  have hne2 : as ++ 13 :: 10 :: r ≠ [] := by simp
  obtain ⟨b, bs, hb⟩ := List.exists_cons_of_ne_nil hne2
  have h3 : (a :: as) ++ 13 :: 10 :: r = a :: b :: bs := by rw [List.cons_append, hb]
  have hguard : (true = true) ∧ key.length ≤ lineLenOf (a :: b :: bs) ∧
      ciEqList ((a :: b :: bs).take key.length) key = true := by
    rw [← h3]
    refine ⟨rfl, ?_, ?_⟩
    · rw [lineLenOf_boundary r h13]
      exact hm.1
    · rw [List.take_append_of_le_length hm.1]
      exact hm.2
  rw [h3, findScan, if_neg (by simp [ha]), if_pos hguard, ← h3]





theorem scan_headerJoin (key : List Nat) : ∀ (ls M : List (List Nat)), M ≠ [] →
    (∀ l ∈ ls, l ≠ [] ∧ (∀ x ∈ l, x ≠ 13) ∧ ¬matchesKeyCI key l) →
    findScan key (headerJoin (ls ++ M)) true = findScan key (headerJoin M) true := by
  intro ls
  induction ls with
  | nil => intro M _ _; rfl
  | cons l ls' ih =>
      intro M hM h
      have hne : ls' ++ M ≠ [] := by
        intro hc
        exact hM (List.append_eq_nil.mp hc).2
      obtain ⟨x, xs, hx⟩ := List.exists_cons_of_ne_nil hne
      have hcons : headerJoin ((l :: ls') ++ M) = l ++ 13 :: 10 :: headerJoin (ls' ++ M) := by
        rw [List.cons_append]
        rw [hx, headerJoin_cons, ← hx]
      rw [hcons, scan_skip_line key l _ (h l (by simp)).2.1 (h l (by simp)).2.2]
      exact ih M hM fun a ha => h a (by simp [ha])

theorem digsVal_stop7 : ∀ (T : List Nat), (T = [] ∨ ∃ r, T = 13 :: r) →
    digsVal T 7 = 7 := by
  intro T hT
  rcases hT with rfl | ⟨r, rfl⟩
  · rfl
  · rfl

theorem cseq_value_7 (v : List Nat)
    (hv : v = ascii "cseq: 7" ∨ v = ascii "CSeq: 7" ∨ v = ascii "CSEQ:7")
    (post : List (List Nat))
    (hpost : ∀ l ∈ post, l ≠ [] ∧ ∀ x ∈ l, x ≠ 13 ∧ x ≠ 0) :
    ∃ val, findScan (ascii "CSeq:") (headerJoin (v :: post)) true = some val ∧
      atoi val = 7 := by
  have h13 : ∀ x ∈ v, x ≠ 13 := by
    rcases hv with rfl | rfl | rfl <;> decide
  have hne : v ≠ [] := by
    rcases hv with rfl | rfl | rfl <;> decide
  have hm : matchesKeyCI (ascii "CSeq:") v := by
    rcases hv with rfl | rfl | rfl <;> exact ⟨by decide, by decide⟩
  cases post with
  | nil =>
      refine ⟨(v.drop (ascii "CSeq:").length).dropWhile fun x => x == 32 || x == 9,
        scan_found_last _ v h13 hm hne, ?_⟩
      rcases hv with rfl | rfl | rfl <;> decide
  | cons p ps =>
      have hJ : headerJoin (v :: p :: ps) = v ++ 13 :: 10 :: headerJoin (p :: ps) :=
        headerJoin_cons v p ps
      rw [hJ]
      refine ⟨((v ++ 13 :: 10 :: headerJoin (p :: ps)).drop
          (ascii "CSeq:").length).dropWhile fun x => x == 32 || x == 9,
        scan_found_mid _ v _ h13 hm hne, ?_⟩
      rw [List.drop_append_of_le_length hm.1]
      rcases hv with rfl | rfl | rfl
      · rfl
      · rfl
      · rfl





theorem headerJoin_mem : ∀ (L : List (List Nat)) (x : Nat), x ∈ headerJoin L →
    (∃ l ∈ L, x ∈ l) ∨ x = 13 ∨ x = 10 := by
  intro L
  induction L with
  | nil => intro x hx; simp [headerJoin] at hx
  | cons l ls ih =>
      intro x hx
      cases ls with
      | nil =>
          left
          exact ⟨l, by simp, by simpa [headerJoin] using hx⟩
      | cons m ms =>
          rw [headerJoin_cons] at hx
          rcases List.mem_append.mp hx with h1 | h2
          · exact Or.inl ⟨l, by simp, h1⟩
          · rcases h2 with _ | ⟨_, h3⟩
            · right; left; rfl
            · rcases h3 with _ | ⟨_, h4⟩
              · right; right; rfl
              · rcases ih x h4 with ⟨l', hl', hx'⟩ | h
                · exact Or.inl ⟨l', List.mem_cons_of_mem _ hl', hx'⟩
                · exact Or.inr h

/-! ## Helper lemmas: response building -/

theorem natDecAux_len : ∀ (fuel n k : Nat), n < 10 ^ k → (natDecAux fuel n).length ≤ k := by
  intro fuel
  induction fuel with
  | zero => intro n k _; simp [natDecAux]
  | succ f ih =>
      intro n k hk
      cases n with
      | zero => simp [natDecAux]
      | succ m =>
          cases k with
          | zero => simp at hk
          | succ k' =>
              rw [natDecAux]
              simp only [List.length_cons]
              have : (m + 1) / 10 < 10 ^ k' := by
                have h10 : (10 : Nat) ^ (k' + 1) = 10 ^ k' * 10 := by ring
                rw [h10] at hk
                omega
              have := ih ((m + 1) / 10) k' this
              omega

theorem natDecBytes_len_le (n : Nat) (h : n ≤ 2 ^ 31) : (natDecBytes n).length ≤ 10 := by
  rw [natDecBytes]
  by_cases h0 : n = 0
  · simp [h0]
  · rw [if_neg h0]
    simp only [List.length_map, List.length_reverse]
    exact natDecAux_len n n 10 (by omega)

theorem intDecBytes_len_le (c : Int) (h : c.natAbs ≤ 2 ^ 31) :
    (intDecBytes c).length ≤ 11 := by
  rw [intDecBytes]
  by_cases hc : c < 0
  · rw [if_pos hc]
    simp only [List.length_cons]
    have := natDecBytes_len_le c.natAbs h
    omega
  · rw [if_neg hc]
    have h2 : c.toNat ≤ 2 ^ 31 := by omega
    have := natDecBytes_len_le c.toNat h2
    omega

theorem buildRtspHead_200ok (c : Int) :
    buildRtspHead 200 (ascii "OK") c none false 0 =
      ascii "RTSP/1.0 200 OK\r\nCSeq: " ++ intDecBytes c ++
        ascii "\r\nServer: AirTunes/377.40.00\r\n\r\n" := by
  rw [buildRtspHead]
  rw [show intDecBytes 200 = [50, 48, 48] from by decide]
  rw [show ascii "RTSP/1.0 " = [82, 84, 83, 80, 47, 49, 46, 48, 32] from by decide]
  rw [show ascii "OK" = [79, 75] from by decide]
  rw [show ascii "\r\nCSeq: " = [13, 10, 67, 83, 101, 113, 58, 32] from by decide]
  rw [show ascii "\r\nServer: AirTunes/377.40.00\r\n" =
    [13, 10, 83, 101, 114, 118, 101, 114, 58, 32, 65, 105, 114, 84, 117, 110, 101, 115, 47,
     51, 55, 55, 46, 52, 48, 46, 48, 48, 13, 10] from by decide]
  rw [show ascii "\r\n" = [13, 10] from by decide]
  rw [show ascii "RTSP/1.0 200 OK\r\nCSeq: " =
    [82, 84, 83, 80, 47, 49, 46, 48, 32, 50, 48, 48, 32, 79, 75, 13, 10, 67, 83, 101, 113,
     58, 32] from by decide]
  rw [show ascii "\r\nServer: AirTunes/377.40.00\r\n\r\n" =
    [13, 10, 83, 101, 114, 118, 101, 114, 58, 32, 65, 105, 114, 84, 117, 110, 101, 115, 47,
     51, 55, 55, 46, 52, 48, 46, 48, 48, 13, 10, 13, 10] from by decide]
  simp [List.cons_append, List.append_assoc]

/-! ## Claims -/

/-- Claim C1: for every plaintext payload of length between 1 and the
maximum block size and sessions whose outbound key/nonce match the
inbound key/nonce, a frame produced by `rtsp_crypto_write_frame` is
decrypted back to exactly the same payload by
`rtsp_crypto_read_block`, and each side's nonce counter advances by
exactly 1 for the one frame processed. -/
theorem claim_C1 (P : List Nat) (sessW sessR : HapSession) (buffer_size : Nat)
    (hP1 : 1 ≤ P.length) (hP2 : P.length ≤ RTSP_ENCRYPTED_BLOCK_MAX)
    (hbuf : P.length ≤ buffer_size)
    (hkey : sessR.decrypt_key = sessW.encrypt_key)
    (hnonce : sessR.decrypt_nonce = sessW.encrypt_nonce) :
    (rtsp_crypto_write_frame ⟨true, some sessW, freshRx⟩ P
        [SendEv.acc 70000, SendEv.acc 70000]).1 = true ∧
    (rtsp_crypto_write_frame ⟨true, some sessW, freshRx⟩ P
        [SendEv.acc 70000, SendEv.acc 70000]).2.1 =
      ⟨true, some { sessW with encrypt_nonce := (sessW.encrypt_nonce + 1) % 2 ^ 64 }, freshRx⟩ ∧
    rtsp_crypto_read_block true
        (sockOfBytes (rtsp_crypto_write_frame ⟨true, some sessW, freshRx⟩ P
          [SendEv.acc 70000, SendEv.acc 70000]).2.2.1)
        ⟨true, some sessR, freshRx⟩ buffer_size =
      (ReadRes.ok P,
       ⟨true, some { sessR with decrypt_nonce := (sessR.decrypt_nonce + 1) % 2 ^ 64 }, freshRx⟩,
       []) := by
  have hne : P ≠ [] := by intro h; rw [h] at hP1; simp at hP1
  have hmax : P.length < 65536 := by
    have := hP2
    simp [RTSP_ENCRYPTED_BLOCK_MAX] at this
    omega
  have hw : rtsp_crypto_write_frame ⟨true, some sessW, freshRx⟩ P
      [SendEv.acc 70000, SendEv.acc 70000] =
      (true, ⟨true, some { sessW with encrypt_nonce := (sessW.encrypt_nonce + 1) % 2 ^ 64 }, freshRx⟩,
       le16 P.length ++
         aeadEncrypt sessW.encrypt_key (buildNonce sessW.encrypt_nonce) (le16 P.length) P,
       []) := by
    unfold rtsp_crypto_write_frame
    dsimp only
    rw [if_neg (by simp)]
    rw [writeLoop_single sessW P 70000 70000 [] hne hP2 (by omega)
      (by simp [RTSP_ENCRYPTED_BLOCK_MAX] at hP2; omega)]
  refine ⟨by rw [hw], by rw [hw], ?_⟩
  rw [hw]
  dsimp only
  have hsock : le16 P.length ++
      aeadEncrypt sessW.encrypt_key (buildNonce sessW.encrypt_nonce) (le16 P.length) P =
      (P.length % 256) :: (P.length / 256 % 256) ::
        aeadEncrypt sessW.encrypt_key (buildNonce sessW.encrypt_nonce) (le16 P.length) P := by
    simp [le16]
  rw [hsock]
  rw [read_block_full_frame sessR (P.length % 256) (P.length / 256 % 256)
    (aeadEncrypt sessW.encrypt_key (buildNonce sessW.encrypt_nonce) (le16 P.length) P)
    buffer_size (by omega) (by omega) (by omega)
    (by rw [aeadEncrypt_length]; omega)]
  have hle : [P.length % 256, P.length / 256 % 256] = le16 P.length := rfl
  rw [hle, hkey, hnonce, aeadDecrypt_encrypt]

theorem claim_C1_witness :
    (1 ≤ ([1, 2, 3] : List Nat).length ∧ ([1, 2, 3] : List Nat).length ≤ 100) ∧
    rtsp_crypto_read_block true
        (sockOfBytes (rtsp_crypto_write_frame ⟨true, some ⟨[5], [7], 9, 11⟩, freshRx⟩ [1, 2, 3]
          [SendEv.acc 70000, SendEv.acc 70000]).2.2.1)
        ⟨true, some ⟨[8], [5], 2, 9⟩, freshRx⟩ 100 =
      (ReadRes.ok [1, 2, 3],
       ⟨true, some ⟨[8], [5], 2, (9 + 1) % 2 ^ 64⟩, freshRx⟩, []) :=
  ⟨⟨by decide, by decide⟩,
   (claim_C1 [1, 2, 3] ⟨[5], [7], 9, 11⟩ ⟨[8], [5], 2, 9⟩ 100 (by decide) (by decide)
     (by decide) rfl rfl).2.2⟩

/-- Claim C2: delivering a valid encrypted frame to
`rtsp_crypto_read_block` one byte per call (each call's socket holds
one byte and then would-blocks) produces the same final result — the
same decrypted plaintext and returned length — and the same final
connection state (hence the same inbound nonce progression) as
delivering the whole frame in a single call. -/
theorem claim_C2 (sess : HapSession) (l0 l1 : Nat) (ct : List Nat) (buffer_size : Nat)
    (hbl1 : 1 ≤ l0 + 256 * l1) (hbl2 : l0 + 256 * l1 ≤ RTSP_ENCRYPTED_BLOCK_MAX)
    (hbl3 : l0 + 256 * l1 ≤ buffer_size)
    (hct : ct.length = l0 + 256 * l1 + 16) :
    driveOneByte true buffer_size ⟨true, some sess, freshRx⟩ (l0 :: l1 :: ct) =
      ((rtsp_crypto_read_block true (sockOfBytes (l0 :: l1 :: ct))
          ⟨true, some sess, freshRx⟩ buffer_size).1,
       (rtsp_crypto_read_block true (sockOfBytes (l0 :: l1 :: ct))
          ⟨true, some sess, freshRx⟩ buffer_size).2.1) := by
  have hne : ct ≠ [] := by intro h; rw [h] at hct; simp at hct
  obtain ⟨c, cs, rfl⟩ := List.exists_cons_of_ne_nil hne
  rw [read_block_full_frame sess l0 l1 (c :: cs) buffer_size hbl1 hbl2 hbl3 hct]
  rw [driveOneByte, read_block_step0]
  dsimp only
  rw [driveOneByte, read_block_step1 sess l0 l1 buffer_size hbl1 hbl2 hbl3]
  dsimp only
  rw [drive_payload sess l0 l1 (l0 + 256 * l1) buffer_size hbl3 (c :: cs) [] (by simp)
    (by simp at hct ⊢; omega)]
  simp only [List.nil_append]
  cases hdec : aeadDecrypt sess.decrypt_key (buildNonce sess.decrypt_nonce) [l0, l1] (c :: cs) with
  | none => rfl
  | some pt => rfl

theorem claim_C2_witness :
    ((List.replicate 18 0 : List Nat).length = 2 + 256 * 0 + 16 ∧ 2 + 256 * 0 ≤ 10) ∧
    driveOneByte true 10 ⟨true, some ⟨[1], [2], 0, 0⟩, freshRx⟩
        (2 :: 0 :: List.replicate 18 0) =
      ((rtsp_crypto_read_block true (sockOfBytes (2 :: 0 :: List.replicate 18 0))
          ⟨true, some ⟨[1], [2], 0, 0⟩, freshRx⟩ 10).1,
       (rtsp_crypto_read_block true (sockOfBytes (2 :: 0 :: List.replicate 18 0))
          ⟨true, some ⟨[1], [2], 0, 0⟩, freshRx⟩ 10).2.1) :=
  ⟨⟨by decide, by decide⟩,
   claim_C2 ⟨[1], [2], 0, 0⟩ 2 0 (List.replicate 18 0) 10 (by decide) (by decide) (by decide)
     (by decide)⟩

/-- Claim C3: a declared block length of 0, above
`RTSP_ENCRYPTED_BLOCK_MAX`, or above the caller's `buffer_size` is a
fatal error rejected before any ciphertext-buffer allocation occurs
(the outcome does not depend on whether the allocation would succeed,
and the final state holds no buffer), and the parser state is reset so
the next call starts a fresh frame. -/
theorem claim_C3 (allocOk : Bool) (sess : HapSession) (l0 l1 : Nat) (buffer_size : Nat)
    (hbad : l0 + 256 * l1 = 0 ∨ RTSP_ENCRYPTED_BLOCK_MAX < l0 + 256 * l1 ∨
      buffer_size < l0 + 256 * l1) :
    rtsp_crypto_read_block allocOk (sockOfBytes [l0, l1]) ⟨true, some sess, freshRx⟩
        buffer_size =
      (ReadRes.fatal RtspErr.badLen, ⟨true, some sess, freshRx⟩, []) := by
  unfold rtsp_crypto_read_block
  dsimp only [sockOfBytes, freshRx]
  simp only [Bool.true_eq_false, if_false, List.length_nil, Nat.sub_zero]
  rw [fillLoop_exact 2 l0 [l1] [] [] (by simp)]
  simp only [List.take_succ_cons, List.take_zero, List.drop_succ_cons, List.drop_zero,
    List.nil_append, List.append_nil]
  simp only [if_true, List.getD_cons_zero, List.getD_cons_succ]
  rw [if_pos hbad]
  rfl

theorem claim_C3_witness :
    ((0 : Nat) + 256 * 5 = 0 ∨ RTSP_ENCRYPTED_BLOCK_MAX < 0 + 256 * 5 ∨ 100 < 0 + 256 * 5) ∧
    rtsp_crypto_read_block false (sockOfBytes [0, 5]) ⟨true, some ⟨[], [], 0, 0⟩, freshRx⟩ 100 =
      (ReadRes.fatal RtspErr.badLen, ⟨true, some ⟨[], [], 0, 0⟩, freshRx⟩, []) :=
  ⟨by decide, claim_C3 false ⟨[], [], 0, 0⟩ 0 5 100 (by decide)⟩

/-- Claim C4 (counterexample): the AEAD nonce the code builds does not
put the counter in the low 8 bytes with the remaining bytes zero — at
counter 1 the code's nonce differs from that layout, whose low 8
bytes would be `le64 1`. -/
theorem claim_C4_counterexample :
    buildNonce 1 ≠ specNonceLow8 1 ∧ (buildNonce 1).take 8 ≠ le64 1 ∧
    buildNonce 1 = [0, 0, 0, 0, 1, 0, 0, 0, 0, 0, 0, 0] := by decide

/-- Claim C4 (amended): for every frame, in both directions, the AEAD
nonce is a 12-byte value whose bytes 4..11 (the last 8 bytes) hold the
little-endian 64-bit nonce counter and whose first 4 bytes are zero;
the associated data passed to the AEAD is exactly the 2 raw
little-endian length-header bytes of the frame (the reader decrypts a
frame `l0 l1 ct` with associated data `[l0, l1]`; the writer encrypts
a chunk with its `le16`-encoded length as associated data and sends
that header before the ciphertext). -/
theorem claim_C4 :
    (∀ counter : Nat,
      (buildNonce counter).length = 12 ∧
      (buildNonce counter).take 4 = List.replicate 4 0 ∧
      (buildNonce counter).drop 4 = le64 counter ∧ (le64 counter).length = 8) ∧
    (∀ (sess : HapSession) (l0 l1 : Nat) (ct : List Nat) (buffer_size : Nat),
      1 ≤ l0 + 256 * l1 → l0 + 256 * l1 ≤ RTSP_ENCRYPTED_BLOCK_MAX →
      l0 + 256 * l1 ≤ buffer_size → ct.length = l0 + 256 * l1 + 16 →
      rtsp_crypto_read_block true (sockOfBytes (l0 :: l1 :: ct))
          ⟨true, some sess, freshRx⟩ buffer_size =
        match aeadDecrypt sess.decrypt_key (buildNonce sess.decrypt_nonce) [l0, l1] ct with
        | some pt =>
            (ReadRes.ok pt,
             ⟨true, some { sess with decrypt_nonce := (sess.decrypt_nonce + 1) % 2 ^ 64 },
              freshRx⟩, [])
        | none => (ReadRes.fatal RtspErr.decFail, ⟨true, some sess, freshRx⟩, [])) ∧
    (∀ (sess : HapSession) (d : List Nat) (n1 n2 : Nat) (rest : SendPlan),
      d ≠ [] → d.length ≤ RTSP_ENCRYPTED_BLOCK_MAX → 2 ≤ n1 + 1 → d.length + 16 ≤ n2 + 1 →
      writeLoop sess d (SendEv.acc n1 :: SendEv.acc n2 :: rest) =
        (true, { sess with encrypt_nonce := (sess.encrypt_nonce + 1) % 2 ^ 64 },
         le16 d.length ++
           aeadEncrypt sess.encrypt_key (buildNonce sess.encrypt_nonce) (le16 d.length) d,
         rest)) := by
  refine ⟨?_, ?_, ?_⟩
  · intro counter
    refine ⟨rfl, rfl, ?_, rfl⟩
    rw [buildNonce]
    rfl
  · intro sess l0 l1 ct buffer_size h1 h2 h3 h4
    exact read_block_full_frame sess l0 l1 ct buffer_size h1 h2 h3 h4
  · intro sess d n1 n2 rest h1 h2 h3 h4
    exact writeLoop_single sess d n1 n2 rest h1 h2 h3 h4

theorem claim_C4_witness :
    (buildNonce 3).take 4 = List.replicate 4 0 ∧ (buildNonce 3).drop 4 = le64 3 ∧
    writeLoop ⟨[1], [2], 7, 0⟩ [9] [SendEv.acc 5, SendEv.acc 70000] =
      (true, ⟨[1], [2], (7 + 1) % 2 ^ 64, 0⟩,
       le16 1 ++ aeadEncrypt [1] (buildNonce 7) (le16 1) [9], []) :=
  ⟨(claim_C4.1 3).2.1, (claim_C4.1 3).2.2.1,
   claim_C4.2.2 ⟨[1], [2], 7, 0⟩ [9] 5 70000 [] (by decide) (by decide) (by decide)
     (by decide)⟩

/-- Claim C5 (counterexample): not every fatal exit of
`rtsp_crypto_read_block` resets all partial-read-state fields — a peer
close while only 1 of the 2 length-header bytes has been received
returns the fatal result but leaves the header received count at 1
(similarly for a hard read error), so the next call would continue the
stale header rather than start a fresh frame. -/
theorem claim_C5_counterexample :
    (rtsp_crypto_read_block true [SockEv.bytes 5 []]
        ⟨true, some ⟨[], [], 0, 0⟩, freshRx⟩ 100).1 = ReadRes.again ∧
    rtsp_crypto_read_block true [SockEv.closed]
        (rtsp_crypto_read_block true [SockEv.bytes 5 []]
          ⟨true, some ⟨[], [], 0, 0⟩, freshRx⟩ 100).2.1 100 =
      (ReadRes.fatal RtspErr.closed,
       ⟨true, some ⟨[], [], 0, 0⟩, ⟨[5], 0, 0, none⟩⟩, []) ∧
    (⟨[5], 0, 0, none⟩ : CryptoRx).len_buf.length = 1 := by decide

/-- Claim C5 (amended): starting from any reachable partial-read state
(`RxInv`), every exit of `rtsp_crypto_read_block` that reports a fatal
error other than the teardown guard leaves no allocated ciphertext
buffer and clears the block length and ciphertext target length.  If
the length-header fill loop itself ends in a hard read error or peer
close, the reported error is a hard read error or peer close, no
ciphertext buffer existed at that point, and the partial header count
is left unchanged: the final header bytes are exactly the header fill
loop's accumulator, which extends the header bytes already present and
is still short of the 2-byte header.  Every other fatal exit —
including a hard read error or peer close striking during the
ciphertext phase — also resets the header bytes received. -/
theorem claim_C5 (allocOk : Bool) (sock : Sock) (conn : RtspConn) (buffer_size : Nat)
    (hinv : RxInv conn.crypto_rx buffer_size) (e : RtspErr) (conn' : RtspConn) (sock' : Sock)
    (hrun : rtsp_crypto_read_block allocOk sock conn buffer_size = (ReadRes.fatal e, conn', sock'))
    (hnt : e ≠ RtspErr.teardown) :
    conn'.crypto_rx.encrypted = none ∧ conn'.crypto_rx.block_len = 0 ∧
    conn'.crypto_rx.encrypted_len = 0 ∧
    (((fillLoop (2 - conn.crypto_rx.len_buf.length) sock conn.crypto_rx.len_buf).1 = FillTag.rerr ∨
      (fillLoop (2 - conn.crypto_rx.len_buf.length) sock conn.crypto_rx.len_buf).1 = FillTag.closed) →
      (e = RtspErr.rerr ∨ e = RtspErr.closed) ∧
      conn.crypto_rx.encrypted = none ∧
      conn'.crypto_rx.len_buf =
        (fillLoop (2 - conn.crypto_rx.len_buf.length) sock conn.crypto_rx.len_buf).2.1 ∧
      IsPrefixList conn.crypto_rx.len_buf conn'.crypto_rx.len_buf ∧
      conn'.crypto_rx.len_buf.length < 2) ∧
    ((fillLoop (2 - conn.crypto_rx.len_buf.length) sock conn.crypto_rx.len_buf).1 ≠ FillTag.rerr →
     (fillLoop (2 - conn.crypto_rx.len_buf.length) sock conn.crypto_rx.len_buf).1 ≠ FillTag.closed →
      conn'.crypto_rx.len_buf = []) :=
  read_block_fatal_reset allocOk sock conn buffer_size hinv e conn' sock' hrun hnt

theorem claim_C5_witness :
    (⟨true, some ⟨[], [], 0, 0⟩, ⟨[5], 0, 0, none⟩⟩ : RtspConn).crypto_rx.encrypted = none ∧
    (⟨true, some ⟨[], [], 0, 0⟩, ⟨[5], 0, 0, none⟩⟩ : RtspConn).crypto_rx.block_len = 0 ∧
    (⟨true, some ⟨[], [], 0, 0⟩, ⟨[5], 0, 0, none⟩⟩ : RtspConn).crypto_rx.encrypted_len = 0 ∧
    (RtspErr.rerr = RtspErr.rerr ∨ RtspErr.rerr = RtspErr.closed) ∧
    freshRx.encrypted = none ∧
    (⟨true, some ⟨[], [], 0, 0⟩, ⟨[5], 0, 0, none⟩⟩ : RtspConn).crypto_rx.len_buf =
      (fillLoop (2 - freshRx.len_buf.length) [SockEv.bytes 5 [], SockEv.rerr]
        freshRx.len_buf).2.1 ∧
    IsPrefixList freshRx.len_buf
      (⟨true, some ⟨[], [], 0, 0⟩, ⟨[5], 0, 0, none⟩⟩ : RtspConn).crypto_rx.len_buf ∧
    (⟨true, some ⟨[], [], 0, 0⟩, ⟨[5], 0, 0, none⟩⟩ : RtspConn).crypto_rx.len_buf.length < 2 :=
  have h := claim_C5 true [SockEv.bytes 5 [], SockEv.rerr] ⟨true, some ⟨[], [], 0, 0⟩, freshRx⟩ 100
    (by constructor
        · intro _; exact ⟨rfl, rfl⟩
        · intro got hgot; simp [freshRx] at hgot)
    RtspErr.rerr ⟨true, some ⟨[], [], 0, 0⟩, ⟨[5], 0, 0, none⟩⟩ [] (by decide) (by decide)
  have h4 := h.2.2.2.1 (Or.inl rfl)
  ⟨h.1, h.2.1, h.2.2.1, h4.1, h4.2.1, h4.2.2.1, h4.2.2.2.1, h4.2.2.2.2⟩

/-- Claim C6: `rtsp_crypto_write_frame` splits a nonempty payload into
the consecutive chunks `chunksOf data`, each between 1 and
`RTSP_ENCRYPTED_BLOCK_MAX` bytes, `⌈L / max⌉` many and concatenating
back to the payload in order; for some `k` (the number of fully sent
frames) the outbound nonce counter advances by exactly `k`, success
means `k` equals the number of chunks and the wire trace is exactly
header-then-ciphertext+tag per chunk in order (`framesOf`); a write
failure makes the whole call fatal, leaves the failed chunk's nonce
increment unperformed, and sends nothing beyond the failed chunk (the
trace extends the first `k` frames and is a prefix of the first `k+1`
frames). -/
theorem claim_C6 (sess : HapSession) (data : List Nat) (plan : SendPlan) (rx : CryptoRx)
    (hne : data ≠ []) (hn : sess.encrypt_nonce < 2 ^ 64) :
    (∀ c ∈ chunksOf data, 1 ≤ c.length ∧ c.length ≤ RTSP_ENCRYPTED_BLOCK_MAX) ∧
    (chunksOf data).length =
      (data.length + RTSP_ENCRYPTED_BLOCK_MAX - 1) / RTSP_ENCRYPTED_BLOCK_MAX ∧
    (chunksOf data).flatten = data ∧
    (∃ k, k ≤ (chunksOf data).length ∧
      ((rtsp_crypto_write_frame ⟨true, some sess, rx⟩ data plan).2.1.hap_session).map
          HapSession.encrypt_nonce = some ((sess.encrypt_nonce + k) % 2 ^ 64) ∧
      ((rtsp_crypto_write_frame ⟨true, some sess, rx⟩ data plan).1 = true ↔
        k = (chunksOf data).length) ∧
      ((rtsp_crypto_write_frame ⟨true, some sess, rx⟩ data plan).1 = true →
        (rtsp_crypto_write_frame ⟨true, some sess, rx⟩ data plan).2.2.1 =
          framesOf sess.encrypt_key sess.encrypt_nonce (chunksOf data)) ∧
      ((rtsp_crypto_write_frame ⟨true, some sess, rx⟩ data plan).1 = false →
        IsPrefixList
          (framesOf sess.encrypt_key sess.encrypt_nonce ((chunksOf data).take k))
          (rtsp_crypto_write_frame ⟨true, some sess, rx⟩ data plan).2.2.1 ∧
        IsPrefixList (rtsp_crypto_write_frame ⟨true, some sess, rx⟩ data plan).2.2.1
          (framesOf sess.encrypt_key sess.encrypt_nonce ((chunksOf data).take (k + 1))))) := by
  refine ⟨chunksOf_bounds data, chunksOf_count data, chunksOf_join data, ?_⟩
  obtain ⟨k, hk, hnonce, hok, hokTr, hfailTr⟩ :=
    writeLoop_run data.length sess data plan (le_refl _) hn
  have hwf : rtsp_crypto_write_frame ⟨true, some sess, rx⟩ data plan =
      ((writeLoop sess data plan).1,
       { encrypted_mode := true,
         hap_session := some (writeLoop sess data plan).2.1, crypto_rx := rx },
       (writeLoop sess data plan).2.2.1, (writeLoop sess data plan).2.2.2) := rfl
  rw [hwf]
  exact ⟨k, hk, by simpa using hnonce, hok, hokTr, hfailTr⟩

theorem claim_C6_witness :
    (([1] : List Nat) ≠ [] ∧ (0 : Nat) < 2 ^ 64) ∧
    (∀ c ∈ chunksOf [1], 1 ≤ c.length ∧ c.length ≤ RTSP_ENCRYPTED_BLOCK_MAX) ∧
    (chunksOf [1]).length =
      (([1] : List Nat).length + RTSP_ENCRYPTED_BLOCK_MAX - 1) / RTSP_ENCRYPTED_BLOCK_MAX :=
  ⟨⟨by decide, by decide⟩,
   (claim_C6 ⟨[1], [2], 0, 0⟩ [1] [] freshRx (by decide) (by decide)).1,
   (claim_C6 ⟨[1], [2], 0, 0⟩ [1] [] freshRx (by decide) (by decide)).2.1⟩

/-- Claim C7 (counterexample): the spec's example input is 59 bytes
long, not 27; truncating it to its first 27 bytes leaves no blank-line
terminator, so `rtsp_request_parse` rejects that 27-byte input rather
than parsing it successfully. -/
theorem claim_C7_counterexample :
    exampleRequest.length ≠ 27 ∧ rtsp_request_parse (exampleRequest.take 27) = none := by
  decide

/-- Claim C7 (amended): the 59-byte example input parses to
method `SETUP`, path `/stream`, cseq 3, content_length 5 and a body
view of exactly the 5 bytes `HELLO` beginning right after the
blank-line terminator (at offset 50 + 4); the body length comes from
the total buffer length, not the declared Content-Length — appending 3
extra bytes to the same buffer yields body_len 8. -/
theorem claim_C7 :
    exampleRequest.length = 59 ∧
    rtsp_request_parse exampleRequest =
      some ⟨ascii "SETUP", ascii "/stream", 3, 5, [], some (ascii "HELLO"), 5⟩ ∧
    rtsp_find_header_end exampleRequest = some 50 ∧
    (rtsp_request_parse exampleRequest).map (fun r => r.body) =
      some (some (exampleRequest.drop 54)) ∧
    (rtsp_request_parse (exampleRequest ++ ascii "XYZ")).map (fun r => r.body_len) =
      some 8 := by
  refine ⟨by decide, by decide, by decide, by decide, by decide⟩

/-- Claim C8: sequence-number header lookup is case-insensitive — for
every request whose header block consists of a request line, any
earlier header lines that do not start with the CSeq key (in any
case), the sequence-number header written as `cseq: 7`, `CSeq: 7`, or
`CSEQ:7`, and any later header lines, parsing yields sequence number
7 (side conditions: lines are nonempty and free of CR and NUL bytes,
the request line starts with a non-whitespace byte, and the header
block fits the parser's 1023-byte header copy). -/
theorem claim_C8 (l₁ : List Nat) (pre post : List (List Nat)) (v body : List Nat)
    (hv : v = ascii "cseq: 7" ∨ v = ascii "CSeq: 7" ∨ v = ascii "CSEQ:7")
    (hlines : ∀ l ∈ l₁ :: (pre ++ v :: post), l ≠ [] ∧ ∀ x ∈ l, x ≠ 13 ∧ x ≠ 0)
    (hnm : ∀ l ∈ l₁ :: pre, ¬matchesKeyCI (ascii "CSeq:") l)
    (hstart : ∃ h t, l₁ = h :: t ∧ isSpaceByte h = false)
    (hsize : (headerJoin (l₁ :: (pre ++ v :: post))).length ≤ 1023) :
    (rtsp_request_parse (headerJoin (l₁ :: (pre ++ v :: post)) ++
        13 :: 10 :: 13 :: 10 :: body)).map (fun r => r.cseq) = some 7 := by
  obtain ⟨h0, t0, hl₁, hsp⟩ := hstart
  have hLlines : ∀ l ∈ l₁ :: (pre ++ v :: post), l ≠ [] ∧ ∀ x ∈ l, x ≠ 13 := by
    intro l hl
    exact ⟨(hlines l hl).1, fun x hx => ((hlines l hl).2 x hx).1⟩
  have hpre_ne : pre ++ v :: post ≠ [] := by simp
  obtain ⟨x, xs, hx⟩ := List.exists_cons_of_ne_nil hpre_ne
  have hJ : headerJoin (l₁ :: (pre ++ v :: post)) =
      l₁ ++ 13 :: 10 :: headerJoin (pre ++ v :: post) := by
    rw [hx, headerJoin_cons, ← hx]
  have h0ne : h0 ≠ 0 := ((hlines l₁ (by simp)).2 h0 (by rw [hl₁]; simp)).2
  have hdata_cons : ∃ tl, headerJoin (l₁ :: (pre ++ v :: post)) ++
      13 :: 10 :: 13 :: 10 :: body = h0 :: tl := by
    rw [hJ, hl₁]
    exact ⟨_, rfl⟩
  have htok : (scanTok 31 (headerJoin (l₁ :: (pre ++ v :: post)) ++
      13 :: 10 :: 13 :: 10 :: body)).1 ≠ [] := by
    obtain ⟨tl, htl⟩ := hdata_cons
    rw [htl]
    simp [scanTok, List.dropWhile_cons, List.takeWhile_cons, hsp, h0ne]
  have hhs : ((headerJoin (l₁ :: (pre ++ v :: post)) ++
      13 :: 10 :: 13 :: 10 :: body).take
        (min (headerJoin (l₁ :: (pre ++ v :: post))).length 1023)).takeWhile
        (fun b => b != 0) = headerJoin (l₁ :: (pre ++ v :: post)) := by
    rw [Nat.min_eq_left hsize, List.take_left]
    apply takeWhile_all
    intro y hy
    rcases headerJoin_mem _ y hy with ⟨l, hl, hyl⟩ | h | h
    · simpa using ((hlines l hl).2 y hyl).2
    · simp [h]
    · simp [h]
  obtain ⟨val, hvalEq, hval7⟩ := cseq_value_7 v hv post (by
    intro l hl
    exact hlines l (by simp [hl]))
  have hL_split : l₁ :: (pre ++ v :: post) = (l₁ :: pre) ++ (v :: post) := by simp
  have hfind : find_header_ci (headerJoin (l₁ :: (pre ++ v :: post))) (ascii "CSeq:") =
      some val := by
    rw [find_header_ci, if_neg (by decide)]
    rw [hL_split, scan_headerJoin (ascii "CSeq:") (l₁ :: pre) (v :: post) (by simp) (by
      intro l hl
      refine ⟨(hLlines l ?_).1, (hLlines l ?_).2, ?_⟩
      · rcases List.mem_cons.mp hl with rfl | hm
        · simp
        · simp [List.mem_append.mpr (Or.inl hm)]
      · rcases List.mem_cons.mp hl with rfl | hm
        · simp
        · simp [List.mem_append.mpr (Or.inl hm)]
      · exact hnm l hl)]
    exact hvalEq
  unfold rtsp_request_parse
  rw [if_neg (by simp)]
  rw [fhe_header _ (by simp) hLlines body]
  simp only [hhs, hfind]
  rw [if_neg htok]
  simp [hval7]

theorem claim_C8_witness :
    ((ascii "CSeq: 7" = ascii "cseq: 7" ∨ ascii "CSeq: 7" = ascii "CSeq: 7" ∨
      ascii "CSeq: 7" = ascii "CSEQ:7") ∧
     (headerJoin [ascii "SETUP / RTSP/1.0", ascii "CSeq: 7"]).length ≤ 1023) ∧
    (rtsp_request_parse (headerJoin [ascii "SETUP / RTSP/1.0", ascii "CSeq: 7"] ++
        13 :: 10 :: 13 :: 10 :: [])).map (fun r => r.cseq) = some 7 :=
  ⟨⟨Or.inr (Or.inl rfl), by decide⟩,
   claim_C8 (ascii "SETUP / RTSP/1.0") [] [] (ascii "CSeq: 7") []
     (Or.inr (Or.inl rfl)) (by decide) (by decide)
     ⟨83, ascii "ETUP / RTSP/1.0", by decide, by decide⟩ (by decide)⟩

/-- Claim C9: in plain (unencrypted) mode, `rtsp_send_response` with
status 200, text "OK", no extra headers and no body sends exactly the
bytes `"RTSP/1.0 200 OK\r\nCSeq: <n>\r\nServer: AirTunes/377.40.00\r\n\r\n"`
with `<n>` the given CSeq, and zero body bytes (the trace is the head
alone), succeeding on a working socket. -/
theorem claim_C9 (cseq : Int) (conn : RtspConn) (hm : conn.encrypted_mode = false)
    (hc : cseq.natAbs ≤ 2 ^ 31) :
    rtsp_send_response conn 200 (ascii "OK") cseq none none 0 true [SendEv.acc 2000] =
      (true, conn,
       ascii "RTSP/1.0 200 OK\r\nCSeq: " ++ intDecBytes cseq ++
         ascii "\r\nServer: AirTunes/377.40.00\r\n\r\n", []) := by
  rw [rtsp_send_response]
  dsimp only
  rw [if_neg (by simp), if_neg (by simp [hm])]
  rw [buildRtspHead_200ok]
  rw [if_neg (by simp)]
  rw [List.append_nil]
  have hlen : (ascii "RTSP/1.0 200 OK\r\nCSeq: " ++ intDecBytes cseq ++
      ascii "\r\nServer: AirTunes/377.40.00\r\n\r\n").length ≤ 2000 + 1 := by
    simp only [List.length_append]
    have := intDecBytes_len_le cseq hc
    have h1 : (ascii "RTSP/1.0 200 OK\r\nCSeq: ").length = 23 := by decide
    have h2 : (ascii "\r\nServer: AirTunes/377.40.00\r\n\r\n").length = 32 := by decide
    omega
  rw [send_all_all _ 2000 [] (by simp [ascii]) hlen]

theorem claim_C9_witness :
    ((3 : Int).natAbs ≤ 2 ^ 31) ∧
    rtsp_send_response ⟨false, none, freshRx⟩ 200 (ascii "OK") 3 none none 0 true
        [SendEv.acc 2000] =
      (true, ⟨false, none, freshRx⟩,
       ascii "RTSP/1.0 200 OK\r\nCSeq: " ++ intDecBytes 3 ++
         ascii "\r\nServer: AirTunes/377.40.00\r\n\r\n", []) :=
  ⟨by decide, claim_C9 3 ⟨false, none, freshRx⟩ rfl (by decide)⟩

/-- Claim C10: whenever the AEAD decryption in `rtsp_crypto_read_block`
succeeds, the plaintext length equals the declared block length, which
was validated against the output capacity before allocation (captured
by the reachable-state invariant `RxInv`); therefore the
post-decryption "decrypted length too large" branch is unreachable,
and every successful call returns a plaintext of positive length at
most `buffer_size` (a positive C return value). -/
theorem claim_C10 (allocOk : Bool) (sock : Sock) (conn : RtspConn) (buffer_size : Nat)
    (hinv : RxInv conn.crypto_rx buffer_size) :
    (rtsp_crypto_read_block allocOk sock conn buffer_size).1 ≠
      ReadRes.fatal RtspErr.tooLarge ∧
    (∀ pt, (rtsp_crypto_read_block allocOk sock conn buffer_size).1 = ReadRes.ok pt →
        1 ≤ pt.length ∧ pt.length ≤ buffer_size) :=
  read_block_no_tooLarge allocOk sock conn buffer_size hinv

theorem claim_C10_witness :
    RxInv freshRx 100 ∧
    (rtsp_crypto_read_block true (sockOfBytes [5, 0])
        ⟨true, some ⟨[1], [2], 0, 0⟩, freshRx⟩ 100).1 ≠ ReadRes.fatal RtspErr.tooLarge := by
  have hinv : RxInv freshRx 100 := by
    constructor
    · intro _
      exact ⟨rfl, rfl⟩
    · intro got hgot
      simp [freshRx] at hgot
  exact ⟨hinv,
    (claim_C10 true (sockOfBytes [5, 0]) ⟨true, some ⟨[1], [2], 0, 0⟩, freshRx⟩ 100 hinv).1⟩

end AirplayRtsp
